import Mathlib

/-!
Verification of the rtrb single-producer single-consumer ring buffer.

The Rust source (src/lib.rs) is shallowly embedded: the shared `RingBuffer`
control block together with the `Producer` and `Consumer` endpoint fields is
modelled as one record `QState`, since in the sequential interleaving
semantics every operation acts atomically on the combined state.  Machine
integers (`usize`) are modelled as `Nat`; positions stay in `0 .. 2*capacity`
by the same conditional arithmetic the source uses.  The buffer of
possibly-uninitialized slots is a `List (Option α)`: `none` is an
uninitialized (or moved-out / destructed) slot, `some v` a live value.
-/

namespace Rtrb

/-- Equality of `Except` results is decidable when both components are. -/
instance exceptDecEq {ε β : Type} [DecidableEq ε] [DecidableEq β] :
    DecidableEq (Except ε β)
  | .ok a, .ok b => decidable_of_iff (a = b) (by simp)
  | .ok _, .error _ => isFalse (by simp)
  | .error _, .ok _ => isFalse (by simp)
  | .error e, .error e' => decidable_of_iff (e = e') (by simp)

/-- Combined state of the ring buffer and its two endpoints:
the shared atomics `head`/`tail`, the slot buffer, the producer's cached
`pHead`, authoritative `pTail` and `initialized` watermark, and the
consumer's authoritative `cHead` and cached `cTail`. -/
structure QState (α : Type) where
  capacity : Nat
  head : Nat
  tail : Nat
  buffer : List (Option α)
  pHead : Nat
  pTail : Nat
  initialized : Nat
  cHead : Nat
  cTail : Nat
deriving DecidableEq, Repr

/-- Modelled from the spec: `PushError::Full(T)` (the rejected value is
returned to the caller); the error enum itself lives in the crate's
`error` module, which is not part of the provided sources. -/
inductive PushError (α : Type) where
  | full (v : α)
deriving DecidableEq, Repr

/-- Modelled from the spec: `PopError::Empty`. -/
inductive PopError where
  | empty
deriving DecidableEq, Repr

/-- Modelled from the spec: `PeekError::Empty`. -/
inductive PeekError where
  | empty
deriving DecidableEq, Repr

/-- Modelled from the spec: `SlicesError::TooFewSlots(usize)` reporting the
actual number of available slots at the refresh point. -/
inductive SlicesError where
  | tooFewSlots (n : Nat)
deriving DecidableEq, Repr

/-- `RingBuffer::collapse_position`: wraps a position from `0 .. 2*capacity`
to a slot index in `0 .. capacity`. -/
def collapsePosition (c pos : Nat) : Nat :=
  if pos < c then pos else pos - c

/-- `RingBuffer::increment`: increments a position by `n` slots. -/
def increment (c pos n : Nat) : Nat :=
  let threshold := 2 * c - n
  if pos < threshold then pos + n else pos - threshold

/-- `RingBuffer::increment1`: increments a position by one slot. -/
def increment1 (c pos : Nat) : Nat :=
  if pos < 2 * c - 1 then pos + 1 else 0

/-- `RingBuffer::distance`: distance between two positions in `0 .. 2*capacity`. -/
def distance (c a b : Nat) : Nat :=
  if a ≤ b then b - a else 2 * c - a + b

/-- The state immediately after `RingBuffer::new(c).split()`:
both counters zero, all slots uninitialized, both caches zero,
`initialized` zero. -/
def initState (α : Type) (c : Nat) : QState α :=
  ⟨c, 0, 0, List.replicate c none, 0, 0, 0, 0, 0⟩

/-- `Producer::next_tail`: the tail position for writing the next slot, if
available; refreshes the cached head when the queue is possibly full. -/
def nextTail (s : QState α) : Option Nat × QState α :=
  let tail := s.pTail
  if distance s.capacity s.pHead tail = s.capacity then
    let head := s.head
    let s1 := { s with pHead := head }
    if distance s1.capacity head tail = s1.capacity then (none, s1)
    else (some tail, s1)
  else (some tail, s)

/-- `Producer::push`: writes the value at the tail slot, then
release-stores the incremented tail; on a full queue returns the value. -/
def push (s : QState α) (v : α) : Except (PushError α) Unit × QState α :=
  match nextTail s with
  | (some tail, s1) =>
    let s2 := { s1 with
      buffer := s1.buffer.set (collapsePosition s1.capacity tail) (some v) }
    let tail' := increment1 s2.capacity tail
    (.ok (), { s2 with tail := tail', pTail := tail' })
  | (none, s1) => (.error (.full v), s1)

/-- `Consumer::next_head`: the head position for reading the next slot, if
available; refreshes the cached tail when the queue is possibly empty. -/
def nextHead (s : QState α) : Option Nat × QState α :=
  let head := s.cHead
  if head = s.cTail then
    let tail := s.tail
    let s1 := { s with cTail := tail }
    if head = tail then (none, s1) else (some head, s1)
  else (some head, s)

/-- `Consumer::pop`: moves the value out of the head slot (the slot becomes
logically uninitialized), then release-stores the incremented head. -/
def pop (s : QState α) : Except PopError (Option α) × QState α :=
  match nextHead s with
  | (some head, s1) =>
    let v := s1.buffer.getD (collapsePosition s1.capacity head) none
    let s2 := { s1 with
      buffer := s1.buffer.set (collapsePosition s1.capacity head) none }
    let head' := increment1 s2.capacity head
    (.ok v, { s2 with head := head', cHead := head' })
  | (none, s1) => (.error .empty, s1)

/-- `Consumer::peek`: reads the value at the head slot without removing it. -/
def peek (s : QState α) : Except PeekError (Option α) × QState α :=
  match nextHead s with
  | (some head, s1) =>
    (.ok (s1.buffer.getD (collapsePosition s1.capacity head) none), s1)
  | (none, s1) => (.error .empty, s1)

/-- Writes `v` into slot indices `start, start+1, …, start+len-1`, in
ascending order (models the `for` loops that default-initialize in
`Producer::push_slices` and that `drop_in_place` in `PopSlices::drop`). -/
def setRange (buf : List (Option α)) (start len : Nat) (v : Option α) :
    List (Option α) :=
  (List.range len).foldl (fun b i => b.set (start + i) v) buf

/-- The two sub-slice extents returned by a successful bulk reservation:
`first` starts at slot `firstStart` and has `firstLen` slots, `second`
starts at slot `0` and has `secondLen` slots. -/
structure SliceInfo where
  firstStart : Nat
  firstLen : Nat
  secondLen : Nat
deriving DecidableEq, Repr

/-- Straight-line tail of `Producer::push_slices` after the availability
check has succeeded: collapse the tail, default-construct the
not-yet-initialized slots in `max(initialized, tail).min(end) .. end`,
raise `initialized` to `end`, and compute the two sub-slice extents. -/
def pushSlicesGo (dflt : α) (s : QState α) (n : Nat) :
    Except SlicesError SliceInfo × QState α :=
  let tail := collapsePosition s.capacity s.pTail
  let e := min s.capacity (tail + n)
  let b := min (max s.initialized tail) e
  let buf := setRange s.buffer b (e - b) (some dflt)
  let firstLen := min n (s.capacity - tail)
  (.ok ⟨tail, firstLen, n - firstLen⟩,
    { s with buffer := buf, initialized := e })

/-- `Producer::push_slices`: fast availability check against the cached
head, refresh and re-check on demand, then the straight-line tail. -/
def pushSlices (dflt : α) (s : QState α) (n : Nat) :
    Except SlicesError SliceInfo × QState α :=
  if s.capacity - distance s.capacity s.pHead s.pTail < n then
    let s1 := { s with pHead := s.head }
    let slots := s1.capacity - distance s1.capacity s1.pHead s1.pTail
    if slots < n then (.error (.tooFewSlots slots), s1)
    else pushSlicesGo dflt s1 n
  else pushSlicesGo dflt s n

/-- `PushSlices::drop`: advances the tail by `first.len() + second.len()`
and release-stores it, publishing the write. -/
def dropPushSlices (s : QState α) (info : SliceInfo) : QState α :=
  let tail := increment s.capacity s.pTail (info.firstLen + info.secondLen)
  { s with tail := tail, pTail := tail }

/-- Writes the values `vs` into consecutive slots starting at `start`
(models the caller storing into a mutable slice of a `PushSlices`). -/
def writeSlots (buf : List (Option α)) (start : Nat) (vs : List α) :
    List (Option α) :=
  match vs with
  | [] => buf
  | v :: rest => writeSlots (buf.set start (some v)) (start + 1) rest

/-- The caller filling both sub-slices of a `PushSlices` handle with `vs`
(first slice first, then the wrapped second slice). -/
def writeSlices (s : QState α) (info : SliceInfo) (vs : List α) : QState α :=
  let b1 := writeSlots s.buffer info.firstStart (vs.take info.firstLen)
  let b2 := writeSlots b1 0 (vs.drop info.firstLen)
  { s with buffer := b2 }

/-- Reads `len` consecutive slots starting at `start` (the contents a
shared sub-slice of `PeekSlices`/`PopSlices` exposes). -/
def readSlots (buf : List (Option α)) (start len : Nat) : List (Option α) :=
  (List.range len).map (fun i => buf.getD (start + i) none)

/-- Straight-line tail of `Consumer::slices` after the availability check:
collapse the head and expose the two sub-slices. -/
def slicesGo (s : QState α) (n : Nat) :
    Except SlicesError (List (Option α) × List (Option α)) × QState α :=
  let head := collapsePosition s.capacity s.cHead
  let firstLen := min n (s.capacity - head)
  (.ok (readSlots s.buffer head firstLen, readSlots s.buffer 0 (n - firstLen)), s)

/-- `Consumer::slices`: fast availability check against the cached tail,
refresh and re-check on demand, then the straight-line tail. -/
def slices (s : QState α) (n : Nat) :
    Except SlicesError (List (Option α) × List (Option α)) × QState α :=
  if distance s.capacity s.cHead s.cTail < n then
    let s1 := { s with cTail := s.tail }
    let slots := distance s1.capacity s1.cHead s1.cTail
    if slots < n then (.error (.tooFewSlots slots), s1)
    else slicesGo s1 n
  else slicesGo s n

/-- `Consumer::advance_head`: increments `head` by `n` and
release-stores it. -/
def advanceHead (s : QState α) (head n : Nat) : QState α :=
  let h := increment s.capacity head n
  { s with head := h, cHead := h }

/-- `PopSlices::drop`: destructs the `firstLen` slots starting at the
collapsed pre-advance head, then the `secondLen` slots starting at slot 0,
in loop order, and only then advances the head.  The returned list records
the slot indices in the order their destructors run. -/
def dropPopSlices (s : QState α) (firstLen secondLen : Nat) :
    List Nat × QState α :=
  let head := s.cHead
  let start := collapsePosition s.capacity head
  let order := (List.range firstLen).map (fun i => start + i) ++
    List.range secondLen
  let buf := setRange (setRange s.buffer start firstLen none) 0 secondLen none
  (order, advanceHead { s with buffer := buf } head (firstLen + secondLen))

/-- One atomic API call in an interleaving of the two endpoints.  A bulk
push carries the values the caller stores through the handle before it is
dropped; the bulk operations include their handle's commit-on-drop. -/
inductive Op (α : Type) where
  | push (v : α)
  | pop
  | peek
  | pushSlices (vs : List α)
  | popSlices (n : Nat)
  | peekSlices (n : Nat)
deriving DecidableEq, Repr

/-- Observable outcome of one operation. -/
inductive Evt (α : Type) where
  | pushOk (v : α)
  | pushFull (v : α)
  | popOk (v : Option α)
  | popEmpty
  | peekOk (v : Option α)
  | peekEmpty
  | pushSlicesOk (vs : List α)
  | pushSlicesFail (m : Nat)
  | popSlicesOk (vs : List (Option α))
  | popSlicesFail (m : Nat)
  | peekSlicesOk (f sec : List (Option α))
  | peekSlicesFail (m : Nat)
deriving DecidableEq, Repr

/-- Executes one operation on the combined state.  `dflt` is the
`Default::default()` value used by the bulk push's lazy initialization. -/
def step (dflt : α) (s : QState α) : Op α → QState α × Evt α
  | .push v =>
    match push s v with
    | (.ok _, s') => (s', .pushOk v)
    | (.error (.full w), s') => (s', .pushFull w)
  | .pop =>
    match pop s with
    | (.ok v, s') => (s', .popOk v)
    | (.error _, s') => (s', .popEmpty)
  | .peek =>
    match peek s with
    | (.ok v, s') => (s', .peekOk v)
    | (.error _, s') => (s', .peekEmpty)
  | .pushSlices vs =>
    match pushSlices dflt s vs.length with
    | (.ok info, s1) =>
      (dropPushSlices (writeSlices s1 info vs) info, .pushSlicesOk vs)
    | (.error (.tooFewSlots m), s1) => (s1, .pushSlicesFail m)
  | .popSlices n =>
    match slices s n with
    | (.ok (f, sec), s1) =>
      ((dropPopSlices s1 f.length sec.length).2, .popSlicesOk (f ++ sec))
    | (.error (.tooFewSlots m), s1) => (s1, .popSlicesFail m)
  | .peekSlices n =>
    match slices s n with
    | (.ok (f, sec), s1) => (s1, .peekSlicesOk f sec)
    | (.error (.tooFewSlots m), s1) => (s1, .peekSlicesFail m)

/-- Runs a sequence of operations, collecting the outcome of each. -/
def run (dflt : α) (s : QState α) : List (Op α) → QState α × List (Evt α)
  | [] => (s, [])
  | op :: ops =>
    let x := step dflt s op
    let y := run dflt x.1 ops
    (y.1, x.2 :: y.2)

/-- The values an event commits into the queue, in slot order. -/
def evtPushed : Evt α → List α
  | .pushOk v => [v]
  | .pushSlicesOk vs => vs
  | _ => []

/-- The slot contents an event consumes from the queue, in slot order. -/
def evtPopped : Evt α → List (Option α)
  | .popOk v => [v]
  | .popSlicesOk vs => vs
  | _ => []

/-- All values successfully committed by a trace, in order. -/
def pushedValues (es : List (Evt α)) : List α :=
  (es.map evtPushed).flatten

/-- All slot contents successfully consumed by a trace, in order. -/
def poppedValues (es : List (Evt α)) : List (Option α) :=
  (es.map evtPopped).flatten

/-! ### Arithmetic facts about the doubled position space -/

theorem mod_sub_of_le {m x : Nat} (h1 : m ≤ x) (h2 : x < 2 * m) :
    x % m = x - m := by
  rw [Nat.mod_eq_sub_mod h1, Nat.mod_eq_of_lt (by omega)]

theorem collapse_eq_mod {c pos : Nat} (h : pos < 2 * c) :
    collapsePosition c pos = pos % c := by
  unfold collapsePosition
  split
  · exact (Nat.mod_eq_of_lt (by assumption)).symm
  · exact (mod_sub_of_le (by omega) h).symm

theorem collapse_lt {c pos : Nat} (hc : 1 ≤ c) (h : pos < 2 * c) :
    collapsePosition c pos < c := by
  unfold collapsePosition; split <;> omega

theorem increment_eq_mod {c pos n : Nat} (h : pos < 2 * c) (hn : n ≤ 2 * c) :
    increment c pos n = (pos + n) % (2 * c) := by
  show (if pos < 2 * c - n then pos + n else pos - (2 * c - n)) = _
  rcases Nat.lt_or_ge (pos + n) (2 * c) with h2 | h2
  · rw [Nat.mod_eq_of_lt h2]; split <;> omega
  · rw [mod_sub_of_le h2 (by omega)]; split <;> omega

theorem increment1_eq_mod {c pos : Nat} (hc : 1 ≤ c) (h : pos < 2 * c) :
    increment1 c pos = (pos + 1) % (2 * c) := by
  unfold increment1
  rcases Nat.lt_or_ge (pos + 1) (2 * c) with h2 | h2
  · rw [Nat.mod_eq_of_lt h2]; split <;> omega
  · rw [mod_sub_of_le h2 (by omega)]; split <;> omega

theorem dist_char {c a b : Nat} (ha : a < 2 * c) (hb : b < 2 * c) :
    b = (a + distance c a b) % (2 * c) := by
  unfold distance
  split
  · have h1 : a + (b - a) = b := by omega
    rw [h1, Nat.mod_eq_of_lt hb]
  · have h1 : a + (2 * c - a + b) = 2 * c + b := by omega
    rw [h1, Nat.add_mod_left, Nat.mod_eq_of_lt hb]

theorem dist_mod {c : Nat} (hc : 1 ≤ c) (x e : Nat) (he : e < 2 * c) :
    distance c (x % (2 * c)) ((x + e) % (2 * c)) = e := by
  have hx : x % (2 * c) < 2 * c := Nat.mod_lt _ (by omega)
  have hkey : (x + e) % (2 * c) = (x % (2 * c) + e) % (2 * c) := by
    rw [Nat.mod_add_mod]
  rw [hkey]
  set a := x % (2 * c) with ha
  unfold distance
  rcases Nat.lt_or_ge (a + e) (2 * c) with h2 | h2
  · rw [Nat.mod_eq_of_lt h2]; split <;> omega
  · rw [mod_sub_of_le h2 (by omega)]; split <;> omega

theorem dist_lt_two_mul {c a b : Nat} (hc : 1 ≤ c) (ha : a < 2 * c)
    (hb : b < 2 * c) : distance c a b < 2 * c := by
  unfold distance; split <;> omega

theorem dist_eq_zero_iff {c a b : Nat} (ha : a < 2 * c) (hb : b < 2 * c) :
    distance c a b = 0 ↔ a = b := by
  unfold distance; split <;> omega

theorem dist_self {c a : Nat} : distance c a a = 0 := by
  unfold distance; simp

theorem mod_add_ne {m x i j : Nat} (hij : i < j) (hlt : j - i < m) :
    (x + i) % m ≠ (x + j) % m := by
  intro h
  have hdvd := (Nat.modEq_iff_dvd' (show x + i ≤ x + j by omega)).mp h
  have h1 : (x + j) - (x + i) = j - i := by omega
  rw [h1] at hdvd
  have := Nat.le_of_dvd (by omega) hdvd
  omega

theorem mod_mod_two_mul (x c : Nat) : x % (2 * c) % c = x % c :=
  Nat.mod_mod_of_dvd x ⟨2, by ring⟩

/-- Advancing the second argument of `distance` by `n` adds `n`,
as long as the result stays below `2 * capacity`. -/
theorem dist_increment_right {c a b n : Nat} (hc : 1 ≤ c) (ha : a < 2 * c)
    (hb : b < 2 * c) (hn : n ≤ 2 * c)
    (h : distance c a b + n < 2 * c) :
    distance c a (increment c b n) = distance c a b + n := by
  have hchar := dist_char ha hb
  have h1 : increment c b n = (a + (distance c a b + n)) % (2 * c) := by
    rw [increment_eq_mod hb hn]
    conv_lhs => rw [hchar]
    rw [Nat.mod_add_mod, Nat.add_assoc]
  have h2 := dist_mod hc a (distance c a b + n) h
  rw [Nat.mod_eq_of_lt ha] at h2
  rw [h1]
  exact h2

/-- Advancing the first argument of `distance` by `n` subtracts `n`,
as long as `n` does not exceed the distance. -/
theorem dist_increment_left {c a b n : Nat} (hc : 1 ≤ c) (ha : a < 2 * c)
    (hb : b < 2 * c) (hn : n ≤ distance c a b)
    (hd : distance c a b < 2 * c) :
    distance c (increment c a n) b = distance c a b - n := by
  have hchar := dist_char ha hb
  have h1 : increment c a n = (a + n) % (2 * c) := by
    rw [increment_eq_mod ha (by omega)]
  have h2 : b = ((a + n) + (distance c a b - n)) % (2 * c) := by
    conv_lhs => rw [hchar]
    congr 1
    omega
  have h3 := dist_mod hc (a + n) (distance c a b - n) (by omega)
  rw [h1]
  conv_lhs => rw [h2]
  exact h3

theorem increment_lt {c pos n : Nat} (hc : 1 ≤ c) (h : pos < 2 * c)
    (hn : n ≤ 2 * c) : increment c pos n < 2 * c := by
  rw [increment_eq_mod h hn]
  exact Nat.mod_lt _ (by omega)

theorem increment1_lt {c pos : Nat} (hc : 1 ≤ c) (h : pos < 2 * c) :
    increment1 c pos < 2 * c := by
  unfold increment1; split <;> omega

/-! ### Facts about the buffer helpers -/

theorem getD_set_self {l : List β} {i : Nat} (h : i < l.length) (a d : β) :
    (l.set i a).getD i d = a := by
  simp [List.getD_eq_getElem?_getD, List.getElem?_set_eq_of_lt _ h]

theorem getD_set_ne {l : List β} {i j : Nat} (h : i ≠ j) (a d : β) :
    (l.set i a).getD j d = l.getD j d := by
  simp [List.getD_eq_getElem?_getD, List.getElem?_set_ne h]

theorem setRange_succ (buf : List (Option α)) (start len : Nat)
    (v : Option α) :
    setRange buf start (len + 1) v =
      (setRange buf start len v).set (start + len) v := by
  unfold setRange
  rw [List.range_succ, List.foldl_append]
  rfl

theorem length_setRange (buf : List (Option α)) (start len : Nat)
    (v : Option α) : (setRange buf start len v).length = buf.length := by
  induction len with
  | zero => rfl
  | succ k ih => rw [setRange_succ, List.length_set, ih]

theorem getD_setRange_out {buf : List (Option α)} {start len j : Nat}
    (h : j < start ∨ start + len ≤ j) (v : Option α) :
    (setRange buf start len v).getD j none = buf.getD j none := by
  induction len with
  | zero => rfl
  | succ k ih =>
    rw [setRange_succ, getD_set_ne (by omega), ih (by omega)]

theorem getD_setRange_in {buf : List (Option α)} {start len j : Nat}
    (h1 : start ≤ j) (h2 : j < start + len) (h3 : j < buf.length)
    (v : Option α) :
    (setRange buf start len v).getD j none = v := by
  induction len with
  | zero => omega
  | succ k ih =>
    rw [setRange_succ]
    rcases Nat.lt_or_ge j (start + k) with h4 | h4
    · rw [getD_set_ne (by omega)]
      exact ih (by omega)
    · have h5 : j = start + k := by omega
      subst h5
      exact getD_set_self (by rw [length_setRange]; omega) _ _

theorem length_writeSlots (vs : List α) :
    ∀ (buf : List (Option α)) (start : Nat),
      (writeSlots buf start vs).length = buf.length := by
  induction vs with
  | nil => intro buf start; rfl
  | cons v rest ih =>
    intro buf start
    show (writeSlots (buf.set start (some v)) (start + 1) rest).length = _
    rw [ih, List.length_set]

theorem getD_writeSlots_out (vs : List α) :
    ∀ (buf : List (Option α)) (start j : Nat),
      (j < start ∨ start + vs.length ≤ j) →
      (writeSlots buf start vs).getD j none = buf.getD j none := by
  induction vs with
  | nil => intro buf start j _; rfl
  | cons v rest ih =>
    intro buf start j h
    have hlen : (v :: rest).length = rest.length + 1 := rfl
    rw [hlen] at h
    show (writeSlots (buf.set start (some v)) (start + 1) rest).getD j none = _
    rw [ih _ _ _ (by omega), getD_set_ne (by omega)]

theorem getD_writeSlots_in (vs : List α) :
    ∀ (buf : List (Option α)) (start : Nat) (j : Nat) (hj : j < vs.length),
      start + vs.length ≤ buf.length →
      (writeSlots buf start vs).getD (start + j) none = some (vs.get ⟨j, hj⟩) := by
  induction vs with
  | nil => intro buf start j hj _; simp at hj
  | cons v rest ih =>
    intro buf start j hj hlen
    have hlc : (v :: rest).length = rest.length + 1 := rfl
    rw [hlc] at hlen
    show (writeSlots (buf.set start (some v)) (start + 1) rest).getD (start + j) none = _
    match j with
    | 0 =>
      rw [getD_writeSlots_out rest _ _ _ (by omega)]
      simpa using getD_set_self (show start < buf.length by omega) (some v) none
    | j' + 1 =>
      have h1 : start + (j' + 1) = (start + 1) + j' := by omega
      have hj' : j' < rest.length := by
        rw [hlc] at hj; omega
      rw [h1, ih _ _ _ hj' (by rw [List.length_set]; omega)]
      rfl

theorem length_readSlots (buf : List (Option α)) (start len : Nat) :
    (readSlots buf start len).length = len := by
  simp [readSlots]

theorem readSlots_congr {buf buf' : List (Option α)} {start len : Nat}
    (h : ∀ j < len, buf.getD (start + j) none = buf'.getD (start + j) none) :
    readSlots buf start len = readSlots buf' start len := by
  unfold readSlots
  exact List.map_congr_left (fun i hi => h i (List.mem_range.mp hi))

theorem readSlots_writeSlots (ws : List α) (buf : List (Option α))
    (start : Nat) (h : start + ws.length ≤ buf.length) :
    readSlots (writeSlots buf start ws) start ws.length = ws.map some := by
  apply List.ext_getElem
  · rw [length_readSlots, List.length_map]
  · intro i h1 h2
    rw [length_readSlots] at h1
    unfold readSlots
    rw [List.getElem_map, List.getElem_range, List.getElem_map]
    rw [getD_writeSlots_in ws buf start i h1 h]
    rfl

theorem mod_two_mul_add_mod (x i c : Nat) :
    (x % (2 * c) + i) % c = (x + i) % c := by
  conv_lhs => rw [Nat.add_mod]
  rw [mod_mod_two_mul, ← Nat.add_mod]

/-! ### The reachable-state invariant and the FIFO history invariant -/

/-- The inductive state invariant: capacity is positive, the buffer has
`capacity` slots, all four position values lie in `0 .. 2*capacity`, the
producer's local tail and the consumer's local head agree with the shared
counters, the fill distance is at most the capacity, the producer's cached
head never under-estimates the fill (so the producer is conservative), the
consumer's cached tail never over-estimates it, and the `initialized`
watermark is at most the capacity. -/
def Inv (s : QState α) : Prop :=
  1 ≤ s.capacity ∧
  s.buffer.length = s.capacity ∧
  s.head < 2 * s.capacity ∧
  s.tail < 2 * s.capacity ∧
  s.pHead < 2 * s.capacity ∧
  s.cTail < 2 * s.capacity ∧
  s.pTail = s.tail ∧
  s.cHead = s.head ∧
  distance s.capacity s.head s.tail ≤ s.capacity ∧
  distance s.capacity s.head s.tail ≤ distance s.capacity s.pHead s.tail ∧
  distance s.capacity s.pHead s.tail ≤ s.capacity ∧
  distance s.capacity s.head s.cTail ≤ distance s.capacity s.head s.tail ∧
  s.initialized ≤ s.capacity

instance {s : QState α} : Decidable (Inv s) := by
  unfold Inv; infer_instance

/-- The queue contents: the slot values at the live positions
`head, head+1, …, tail-1` (in doubled-position space), in FIFO order. -/
def liveVals (s : QState α) : List (Option α) :=
  (List.range (distance s.capacity s.head s.tail)).map
    (fun i => s.buffer.getD ((s.head + i) % s.capacity) none)

/-- FIFO history invariant: the consumed slot contents followed by the
current queue contents are exactly the successfully committed values. -/
def Hist (s : QState α) (pushed : List α) (popped : List (Option α)) : Prop :=
  popped ++ liveVals s = pushed.map some

theorem liveVals_congr {s s' : QState α} (hc : s'.capacity = s.capacity)
    (hh : s'.head = s.head) (ht : s'.tail = s.tail)
    (hb : s'.buffer = s.buffer) : liveVals s' = liveVals s := by
  unfold liveVals
  rw [hc, hh, ht, hb]

theorem hist_congr {s s' : QState α} {pushed : List α}
    {popped : List (Option α)} (hH : Hist s pushed popped)
    (hc : s'.capacity = s.capacity) (hh : s'.head = s.head)
    (ht : s'.tail = s.tail) (hb : s'.buffer = s.buffer) :
    Hist s' pushed popped := by
  unfold Hist
  rw [liveVals_congr hc hh ht hb]
  exact hH

theorem inv_init {c : Nat} (hc : 1 ≤ c) : Inv (initState α c) := by
  refine ⟨hc, ?_, ?_, ?_, ?_, ?_, rfl, rfl, ?_, ?_, ?_, ?_, ?_⟩ <;>
    simp [initState, dist_self] <;> omega

theorem hist_init {c : Nat} : Hist (initState α c) [] [] := by
  simp [Hist, liveVals, initState, dist_self]

theorem inv_refresh_pHead {s : QState α} (hI : Inv s) :
    Inv { s with pHead := s.head } := by
  obtain ⟨h1, h2, h3, h4, h5, h6, h7, h8, h9, h10, h11, h12, h13⟩ := hI
  exact ⟨h1, h2, h3, h4, h3, h6, h7, h8, h9, Nat.le_refl _, h9, h12, h13⟩

theorem inv_refresh_cTail {s : QState α} (hI : Inv s) :
    Inv { s with cTail := s.tail } := by
  obtain ⟨h1, h2, h3, h4, h5, h6, h7, h8, h9, h10, h11, h12, h13⟩ := hI
  exact ⟨h1, h2, h3, h4, h5, h4, h7, h8, h9, h10, h11, Nat.le_refl _, h13⟩

/-- Committing a single-element push preserves the invariants: the write
lands in the slot just past the live region and the tail advance appends
the value to the queue contents. -/
theorem push_write_preserve {s : QState α} {pushed : List α}
    {popped : List (Option α)} (hI : Inv s) (hH : Hist s pushed popped)
    (v : α)
    (hroom : distance s.capacity s.pHead s.tail < s.capacity) :
    Inv { s with
      buffer := s.buffer.set (collapsePosition s.capacity s.pTail) (some v),
      tail := increment1 s.capacity s.pTail,
      pTail := increment1 s.capacity s.pTail } ∧
    Hist { s with
      buffer := s.buffer.set (collapsePosition s.capacity s.pTail) (some v),
      tail := increment1 s.capacity s.pTail,
      pTail := increment1 s.capacity s.pTail } (pushed ++ [v]) popped := by
  obtain ⟨hc, hbl, hH2, hT2, hPH2, hCT2, hptl, hchd, hd, hdp, hdpc, hdc, hin⟩ := hI
  set c := s.capacity with hcc
  set d := distance c s.head s.tail with hdd
  have hdlt : d < c := lt_of_le_of_lt hdp hroom
  have hinc : increment1 c s.pTail = increment c s.tail 1 := by
    rw [hptl, increment1_eq_mod hc hT2, increment_eq_mod hT2 (by omega)]
  have hdist' : distance c s.head (increment1 c s.pTail) = d + 1 := by
    rw [hinc]
    exact dist_increment_right hc hH2 hT2 (by omega) (by omega)
  have hdistp' : distance c s.pHead (increment1 c s.pTail) =
      distance c s.pHead s.tail + 1 := by
    rw [hinc]
    exact dist_increment_right hc hPH2 hT2 (by omega) (by omega)
  have htl2 : increment1 c s.pTail < 2 * c := by
    rw [hinc]
    exact increment_lt hc hT2 (by omega)
  have hidxW : collapsePosition c s.pTail = (s.head + d) % c := by
    rw [hptl, collapse_eq_mod hT2]
    conv_lhs => rw [dist_char hH2 hT2]
    exact mod_mod_two_mul _ c
  have hlive : liveVals { s with
      buffer := s.buffer.set (collapsePosition c s.pTail) (some v),
      tail := increment1 c s.pTail,
      pTail := increment1 c s.pTail } = liveVals s ++ [some v] := by
    unfold liveVals
    dsimp only
    rw [hdist', List.range_succ, List.map_append]
    congr 1
    · apply List.map_congr_left
      intro i hi
      rw [List.mem_range] at hi
      apply getD_set_ne
      rw [hidxW]
      exact (mod_add_ne hi (by omega)).symm
    · simp only [List.map_cons, List.map_nil]
      rw [← hidxW]
      congr 1
      exact getD_set_self (by rw [hidxW, hbl]; exact Nat.mod_lt _ (by omega)) _ _
  constructor
  · refine ⟨?_, ?_, ?_, ?_, ?_, ?_, ?_, ?_, ?_, ?_, ?_, ?_, ?_⟩ <;> dsimp only
    · exact hc
    · rw [List.length_set]; exact hbl
    · exact hH2
    · exact htl2
    · exact hPH2
    · exact hCT2
    · exact hchd
    · rw [hdist']; omega
    · rw [hdist', hdistp']; omega
    · rw [hdistp']; omega
    · rw [hdist']
      have := hdc
      omega
    · exact hin
  · show _ ++ liveVals _ = _
    rw [hlive, List.map_append, ← List.append_assoc, hH]
    rfl

/-- `Producer::push` preserves both invariants: success appends the value,
failure leaves everything but the cached head untouched. -/
theorem push_preserve {s : QState α} {pushed : List α}
    {popped : List (Option α)} (hI : Inv s) (hH : Hist s pushed popped)
    (v : α) :
    Inv (push s v).2 ∧
    ((push s v).1 = .ok () → Hist (push s v).2 (pushed ++ [v]) popped) ∧
    ((push s v).1 ≠ .ok () → (push s v).1 = .error (.full v) ∧
      Hist (push s v).2 pushed popped) := by
  have hI1 := inv_refresh_pHead hI
  have hH1 : Hist { s with pHead := s.head } pushed popped :=
    hist_congr hH rfl rfl rfl rfl
  obtain ⟨hc, hbl, hH2, hT2, hPH2, hCT2, hptl, hchd, hd, hdp, hdpc, hdc, hin⟩ := hI
  simp only [push, nextTail]
  split_ifs with h1 h2
  · -- really full: refresh, then fail
    refine ⟨hI1, ?_, ?_⟩
    · intro h; simp at h
    · intro _
      exact ⟨rfl, hH1⟩
  · -- possibly full, refresh reveals room
    have hroom : distance s.capacity s.head s.tail < s.capacity := by
      refine lt_of_le_of_ne hd ?_
      rw [← hptl]
      exact h2
    have hcom := push_write_preserve hI1 hH1 v (by simpa using hroom)
    refine ⟨hcom.1, ?_, ?_⟩
    · intro _; exact hcom.2
    · intro h; simp at h
  · -- fast path: room without refreshing
    have hroom : distance s.capacity s.pHead s.tail < s.capacity := by
      refine lt_of_le_of_ne hdpc ?_
      rw [← hptl]
      exact h1
    have hcom := push_write_preserve
      ⟨hc, hbl, hH2, hT2, hPH2, hCT2, hptl, hchd, hd, hdp, hdpc, hdc, hin⟩
      hH v hroom
    refine ⟨hcom.1, ?_, ?_⟩
    · intro _; exact hcom.2
    · intro h; simp at h

/-- Committing a single-element pop preserves the invariants: the value
moved out is the first queue element and the head advance removes it. -/
theorem pop_read_preserve {s : QState α} {pushed : List α}
    {popped : List (Option α)} (hI : Inv s) (hH : Hist s pushed popped)
    (hne : 0 < distance s.capacity s.head s.cTail) :
    Inv { s with
      buffer := s.buffer.set (collapsePosition s.capacity s.cHead) none,
      head := increment1 s.capacity s.cHead,
      cHead := increment1 s.capacity s.cHead } ∧
    Hist { s with
      buffer := s.buffer.set (collapsePosition s.capacity s.cHead) none,
      head := increment1 s.capacity s.cHead,
      cHead := increment1 s.capacity s.cHead } pushed
      (popped ++ [s.buffer.getD (collapsePosition s.capacity s.cHead) none]) := by
  obtain ⟨hc, hbl, hH2, hT2, hPH2, hCT2, hptl, hchd, hd, hdp, hdpc, hdc, hin⟩ := hI
  set c := s.capacity with hcc
  set d := distance c s.head s.tail with hdd
  have hd1 : 1 ≤ d := le_trans hne hdc
  have hinc : increment1 c s.cHead = increment c s.head 1 := by
    rw [hchd, increment1_eq_mod hc hH2, increment_eq_mod hH2 (by omega)]
  have hdist' : distance c (increment1 c s.cHead) s.tail = d - 1 := by
    rw [hinc]
    exact dist_increment_left hc hH2 hT2 (by omega) (dist_lt_two_mul hc hH2 hT2)
  have hdistc' : distance c (increment1 c s.cHead) s.cTail =
      distance c s.head s.cTail - 1 := by
    rw [hinc]
    exact dist_increment_left hc hH2 hCT2 (by omega) (dist_lt_two_mul hc hH2 hCT2)
  have hh2' : increment1 c s.cHead < 2 * c := by
    rw [hinc]
    exact increment_lt hc hH2 (by omega)
  have hidx : collapsePosition c s.cHead = s.head % c := by
    rw [hchd, collapse_eq_mod hH2]
  have hlive' : liveVals { s with
      buffer := s.buffer.set (collapsePosition c s.cHead) none,
      head := increment1 c s.cHead,
      cHead := increment1 c s.cHead } =
      (List.range (d - 1)).map
        (fun i => s.buffer.getD ((s.head + (1 + i)) % c) none) := by
    unfold liveVals
    dsimp only
    rw [hdist']
    apply List.map_congr_left
    intro i hi
    rw [List.mem_range] at hi
    have hidx2 : (increment1 c s.cHead + i) % c = (s.head + (1 + i)) % c := by
      rw [hinc, increment_eq_mod hH2 (by omega), mod_two_mul_add_mod]
      congr 1
      omega
    rw [hidx2]
    apply getD_set_ne
    rw [hidx]
    have h0 : s.head % c = (s.head + 0) % c := by rw [Nat.add_zero]
    rw [h0]
    exact mod_add_ne (by omega) (by omega)
  have hliveS : liveVals s = s.buffer.getD ((s.head + 0) % c) none ::
      (List.range (d - 1)).map
        (fun i => s.buffer.getD ((s.head + (1 + i)) % c) none) := by
    unfold liveVals
    obtain ⟨k, hk⟩ : ∃ k, d = k + 1 := ⟨d - 1, by omega⟩
    rw [show distance s.capacity s.head s.tail = d from rfl, hk,
      List.range_succ_eq_map, List.map_cons, List.map_map]
    congr 1
    simp only [Nat.add_sub_cancel]
    apply List.map_congr_left
    intro i hi
    simp only [Function.comp]
    have harg : s.head + Nat.succ i = s.head + (1 + i) := by omega
    rw [harg]
  constructor
  · refine ⟨?_, ?_, ?_, ?_, ?_, ?_, ?_, ?_, ?_, ?_, ?_, ?_, ?_⟩ <;> dsimp only
    · exact hc
    · rw [List.length_set]; exact hbl
    · exact hh2'
    · exact hT2
    · exact hPH2
    · exact hCT2
    · exact hptl
    · rw [hdist']; omega
    · rw [hdist']
      have := hdp
      omega
    · exact hdpc
    · rw [hdist', hdistc']
      have := hdc
      omega
    · exact hin
  · show _ ++ liveVals _ = _
    rw [hlive', List.append_assoc]
    have hv0 : s.buffer.getD (collapsePosition c s.cHead) none =
        s.buffer.getD ((s.head + 0) % c) none := by
      rw [hidx, Nat.add_zero]
    rw [hv0]
    have hfin : [s.buffer.getD ((s.head + 0) % c) none] ++
        (List.range (d - 1)).map
          (fun i => s.buffer.getD ((s.head + (1 + i)) % c) none) =
        liveVals s := by
      rw [hliveS]
      rfl
    rw [hfin]
    exact hH

/-- `Consumer::pop` preserves both invariants: success consumes the first
queue element, failure leaves everything but the cached tail untouched. -/
theorem pop_preserve {s : QState α} {pushed : List α}
    {popped : List (Option α)} (hI : Inv s) (hH : Hist s pushed popped) :
    Inv (pop s).2 ∧
    (∀ v, (pop s).1 = .ok v → Hist (pop s).2 pushed (popped ++ [v])) ∧
    ((pop s).1 = .error .empty → Hist (pop s).2 pushed popped) := by
  have hI1 := inv_refresh_cTail hI
  have hH1 : Hist { s with cTail := s.tail } pushed popped :=
    hist_congr hH rfl rfl rfl rfl
  obtain ⟨hc, hbl, hH2, hT2, hPH2, hCT2, hptl, hchd, hd, hdp, hdpc, hdc, hin⟩ := hI
  simp only [pop, nextHead]
  split_ifs with h1 h2
  · -- really empty after refresh
    refine ⟨hI1, ?_, ?_⟩
    · intro v hv; simp at hv
    · intro _; exact hH1
  · -- possibly empty, refresh reveals an element
    have hne : 0 < distance s.capacity s.head s.tail := by
      rcases Nat.eq_zero_or_pos (distance s.capacity s.head s.tail) with h0 | h0
      · rw [dist_eq_zero_iff hH2 hT2] at h0
        rw [← hchd] at h0
        exact absurd h0 h2
      · exact h0
    have hcom := pop_read_preserve hI1 hH1 (by simpa using hne)
    refine ⟨hcom.1, ?_, ?_⟩
    · intro v hv
      simp only [Except.ok.injEq] at hv
      rw [← hv]
      exact hcom.2
    · intro hv; simp at hv
  · -- fast path: the cached tail already shows an element
    have hne : 0 < distance s.capacity s.head s.cTail := by
      rcases Nat.eq_zero_or_pos (distance s.capacity s.head s.cTail) with h0 | h0
      · rw [dist_eq_zero_iff hH2 hCT2] at h0
        rw [← hchd] at h0
        exact absurd h0 h1
      · exact h0
    have hcom := pop_read_preserve
      ⟨hc, hbl, hH2, hT2, hPH2, hCT2, hptl, hchd, hd, hdp, hdpc, hdc, hin⟩
      hH hne
    refine ⟨hcom.1, ?_, ?_⟩
    · intro v hv
      simp only [Except.ok.injEq] at hv
      rw [← hv]
      exact hcom.2
    · intro hv; simp at hv

/-- `Consumer::peek` preserves both invariants: it never changes any
shared state, at most the cached tail. -/
theorem peek_preserve {s : QState α} {pushed : List α}
    {popped : List (Option α)} (hI : Inv s) (hH : Hist s pushed popped) :
    Inv (peek s).2 ∧ Hist (peek s).2 pushed popped := by
  have hI1 := inv_refresh_cTail hI
  have hH1 : Hist { s with cTail := s.tail } pushed popped :=
    hist_congr hH rfl rfl rfl rfl
  simp only [peek, nextHead]
  split_ifs with h1 h2
  · exact ⟨hI1, hH1⟩
  · exact ⟨hI1, hH1⟩
  · exact ⟨hI, hH⟩

/-- Committing a bulk push (reservation, caller writes, handle drop)
preserves the invariants: the freshly written values are appended, in slot
order (first slice, then the wrapped second slice), to the queue contents. -/
theorem pushSlicesGo_ok_preserve {s s1 : QState α} {info : SliceInfo}
    {pushed : List α} {popped : List (Option α)}
    (hI : Inv s) (hH : Hist s pushed popped) (dflt : α) (vs : List α)
    (havail : distance s.capacity s.pHead s.tail + vs.length ≤ s.capacity)
    (heq : pushSlicesGo dflt s vs.length = (.ok info, s1)) :
    Inv (dropPushSlices (writeSlices s1 info vs) info) ∧
    Hist (dropPushSlices (writeSlices s1 info vs) info) (pushed ++ vs)
      popped := by
  obtain ⟨hc, hbl, hH2, hT2, hPH2, hCT2, hptl, hchd, hd, hdp, hdpc, hdc, hin⟩ := hI
  simp only [pushSlicesGo, Prod.mk.injEq, Except.ok.injEq] at heq
  obtain ⟨hinfo, hs1⟩ := heq
  subst hinfo
  subst hs1
  simp only [dropPushSlices, writeSlices]
  set c := s.capacity with hcc
  set n := vs.length with hnn
  set d := distance c s.head s.tail with hdd
  set t := collapsePosition c s.pTail with ht0
  set fl := min n (c - t) with hfl0
  set e := min c (t + n) with he0
  set b0 := min (max s.initialized t) e with hb0
  set bufI := setRange s.buffer b0 (e - b0) (some dflt) with hbI
  set buf2 := writeSlots bufI t (vs.take fl) with hb2
  set buf3 := writeSlots buf2 0 (vs.drop fl) with hb3
  have hdn : d + n ≤ c := by omega
  have ht2 : t < c := by
    rw [ht0]
    exact collapse_lt hc (hptl ▸ hT2)
  have hte : t = (s.head + d) % c := by
    rw [ht0, hptl, collapse_eq_mod hT2]
    conv_lhs => rw [dist_char hH2 hT2]
    exact mod_mod_two_mul _ c
  have hfl1 : fl ≤ n := by omega
  have hfl2 : t + fl ≤ c := by omega
  have he1 : e = t + fl := by omega
  have hb1 : t ≤ b0 ∧ b0 ≤ e := by omega
  have hsec : 0 < n - fl → t + fl = c := by omega
  have hsec2 : n - fl ≤ t := by omega
  have hltake : (vs.take fl).length = fl := by
    rw [List.length_take]; omega
  have hldrop : (vs.drop fl).length = n - fl := by
    rw [List.length_drop]
  have hlbI : bufI.length = c := by
    rw [hbI, length_setRange]; exact hbl
  have hlb2 : buf2.length = c := by
    rw [hb2, length_writeSlots]; exact hlbI
  have hlb3 : buf3.length = c := by
    rw [hb3, length_writeSlots]; exact hlb2
  have hmap : ∀ j, j < n → (s.head + (d + j)) % c =
      if j < fl then t + j else j - fl := by
    intro j hj
    have h1 : (s.head + (d + j)) % c = (t + j) % c := by
      rw [hte, Nat.mod_add_mod]
      congr 1
      omega
    rw [h1]
    by_cases hjf : j < fl
    · rw [if_pos hjf]
      exact Nat.mod_eq_of_lt (by omega)
    · rw [if_neg hjf,
        mod_sub_of_le (show c ≤ t + j by omega) (show t + j < 2 * c by omega)]
      omega
  have hold : ∀ i, i < d →
      buf3.getD ((s.head + i) % c) none =
        s.buffer.getD ((s.head + i) % c) none := by
    intro i hi
    have hidx_lt : (s.head + i) % c < c := Nat.mod_lt _ (by omega)
    have hnot1 : ¬(t ≤ (s.head + i) % c ∧ (s.head + i) % c < t + fl) := by
      rintro ⟨hlo, hhi⟩
      set j := (s.head + i) % c - t with hj0
      have hjfl : j < fl := by omega
      have hm := hmap j (by omega)
      rw [if_pos hjfl] at hm
      have hcontra := @mod_add_ne c s.head i (d + j) (by omega) (by omega)
      rw [hm] at hcontra
      omega
    have hnot2 : ¬((s.head + i) % c < n - fl) := by
      intro hlt
      set j := fl + (s.head + i) % c with hj0
      have hjn : j < n := by omega
      have hm := hmap j hjn
      rw [if_neg (by omega)] at hm
      have hcontra := @mod_add_ne c s.head i (d + j) (by omega) (by omega)
      rw [hm] at hcontra
      omega
    rw [hb3, getD_writeSlots_out _ _ _ _ (by rw [hldrop]; omega),
      hb2, getD_writeSlots_out _ _ _ _ (by rw [hltake]; omega),
      hbI, getD_setRange_out (by omega)]
  have hT'eq : increment c s.pTail (fl + (n - fl)) = increment c s.tail n := by
    rw [hptl]
    congr 1
    omega
  have hdistT' : distance c s.head (increment c s.pTail (fl + (n - fl))) =
      d + n := by
    rw [hT'eq]
    exact dist_increment_right hc hH2 hT2 (by omega) (by omega)
  have hdistpT' : distance c s.pHead (increment c s.pTail (fl + (n - fl))) =
      distance c s.pHead s.tail + n := by
    rw [hT'eq]
    exact dist_increment_right hc hPH2 hT2 (by omega) (by omega)
  have hT'lt : increment c s.pTail (fl + (n - fl)) < 2 * c := by
    rw [hT'eq]
    exact increment_lt hc hT2 (by omega)
  have hpart2 : (List.range fl).map
      (fun j => buf3.getD ((s.head + (d + j)) % c) none) =
      (vs.take fl).map some := by
    have hstep1 : (List.range fl).map
        (fun j => buf3.getD ((s.head + (d + j)) % c) none) =
        readSlots buf3 t fl := by
      apply List.map_congr_left
      intro j hj
      rw [List.mem_range] at hj
      have hm := hmap j (by omega)
      rw [if_pos hj] at hm
      rw [hm]
    have hstep2 : readSlots buf3 t fl = readSlots buf2 t fl := by
      apply readSlots_congr
      intro j hj
      rw [hb3]
      exact getD_writeSlots_out _ _ _ _ (by rw [hldrop]; omega)
    have hrw := readSlots_writeSlots (vs.take fl) bufI t
      (by rw [hlbI, hltake]; omega)
    rw [hltake] at hrw
    rw [hstep1, hstep2, hb2]
    exact hrw
  have hpart3 : (List.range (n - fl)).map
      (fun j => buf3.getD ((s.head + (d + (fl + j))) % c) none) =
      (vs.drop fl).map some := by
    have hstep1 : (List.range (n - fl)).map
        (fun j => buf3.getD ((s.head + (d + (fl + j))) % c) none) =
        readSlots buf3 0 (n - fl) := by
      apply List.map_congr_left
      intro j hj
      rw [List.mem_range] at hj
      have hm := hmap (fl + j) (by omega)
      rw [if_neg (by omega)] at hm
      rw [hm]
      congr 1
      omega
    have hrw := readSlots_writeSlots (vs.drop fl) buf2 0
      (by rw [hlb2, hldrop]; omega)
    rw [hldrop] at hrw
    rw [hstep1, hb3]
    exact hrw
  have hlive : liveVals { s with
      buffer := buf3,
      initialized := e,
      tail := increment c s.pTail (fl + (n - fl)),
      pTail := increment c s.pTail (fl + (n - fl)) } =
      liveVals s ++ vs.map some := by
    unfold liveVals
    dsimp only
    rw [hdistT']
    rw [show d + n = (d + fl) + (n - fl) by omega, List.range_add,
      List.range_add, List.map_append, List.map_append, List.map_map,
      List.map_map]
    have hp1 : (List.range d).map
        (fun i => buf3.getD ((s.head + i) % c) none) =
        (List.range d).map
          (fun i => s.buffer.getD ((s.head + i) % c) none) := by
      apply List.map_congr_left
      intro i hi
      rw [List.mem_range] at hi
      exact hold i hi
    rw [List.append_assoc]
    have hcomp2 : ((fun j => buf3.getD ((s.head + j) % c) none) ∘
        (fun x => d + x)) = fun j => buf3.getD ((s.head + (d + j)) % c) none := by
      funext j
      rfl
    have hcomp3 : ((fun j => buf3.getD ((s.head + j) % c) none) ∘
        (fun x => d + fl + x)) =
        fun j => buf3.getD ((s.head + (d + (fl + j))) % c) none := by
      funext j
      simp only [Function.comp]
      congr 2
      omega
    rw [hcomp2, hcomp3, hp1, hpart2, hpart3, ← List.map_append,
      List.take_append_drop]
  constructor
  · refine ⟨?_, ?_, ?_, ?_, ?_, ?_, ?_, ?_, ?_, ?_, ?_, ?_, ?_⟩ <;> dsimp only
    · exact hc
    · exact hlb3
    · exact hH2
    · exact hT'lt
    · exact hPH2
    · exact hCT2
    · exact hchd
    · rw [hdistT']; omega
    · rw [hdistT', hdistpT']; omega
    · rw [hdistpT']; omega
    · rw [hdistT']
      have := hdc
      omega
    · omega
  · show _ ++ liveVals _ = _
    rw [hlive, ← List.append_assoc, hH, List.map_append]

/-- `Producer::push_slices` followed by writing through the slices and
dropping the handle preserves the invariants. -/
theorem pushSlices_ok_preserve {s s1 : QState α} {info : SliceInfo}
    {pushed : List α} {popped : List (Option α)}
    (hI : Inv s) (hH : Hist s pushed popped) (dflt : α) (vs : List α)
    (heq : pushSlices dflt s vs.length = (.ok info, s1)) :
    Inv (dropPushSlices (writeSlices s1 info vs) info) ∧
    Hist (dropPushSlices (writeSlices s1 info vs) info) (pushed ++ vs)
      popped := by
  have hI1 := inv_refresh_pHead hI
  have hH1 : Hist { s with pHead := s.head } pushed popped :=
    hist_congr hH rfl rfl rfl rfl
  obtain ⟨hc, hbl, hH2, hT2, hPH2, hCT2, hptl, hchd, hd, hdp, hdpc, hdc, hin⟩ := hI
  simp only [pushSlices] at heq
  split_ifs at heq with h1 h2
  · simp at heq
  · refine pushSlicesGo_ok_preserve hI1 hH1 dflt vs ?_ heq
    dsimp only at h2 ⊢
    rw [hptl] at h2
    omega
  · refine pushSlicesGo_ok_preserve
      ⟨hc, hbl, hH2, hT2, hPH2, hCT2, hptl, hchd, hd, hdp, hdpc, hdc, hin⟩
      hH dflt vs ?_ heq
    rw [hptl] at h1
    omega

/-- Committing a bulk pop (slice computation and handle drop) preserves
the invariants: the destructed slots are exactly the first `n` queue
elements and the head advance removes them. -/
theorem slicesGo_pop_preserve {s s1 : QState α} {f sec : List (Option α)}
    {pushed : List α} {popped : List (Option α)}
    (hI : Inv s) (hH : Hist s pushed popped) (n : Nat)
    (havail : n ≤ distance s.capacity s.head s.cTail)
    (heq : slicesGo s n = (.ok (f, sec), s1)) :
    Inv (dropPopSlices s1 f.length sec.length).2 ∧
    Hist (dropPopSlices s1 f.length sec.length).2 pushed
      (popped ++ (f ++ sec)) := by
  obtain ⟨hc, hbl, hH2, hT2, hPH2, hCT2, hptl, hchd, hd, hdp, hdpc, hdc, hin⟩ := hI
  simp only [slicesGo, Prod.mk.injEq, Except.ok.injEq] at heq
  obtain ⟨⟨hf, hsec⟩, hs1⟩ := heq
  subst hs1
  rw [← hf, ← hsec]
  rw [length_readSlots, length_readSlots]
  simp only [dropPopSlices, advanceHead]
  set c := s.capacity with hcc
  set d := distance c s.head s.tail with hdd
  set D := distance c s.head s.cTail with hDD
  set h := collapsePosition c s.cHead with hh0
  set flen := min n (c - h) with hfl0
  set bufC := setRange (setRange s.buffer h flen none) 0 (n - flen) none
    with hbC
  have hnd : n ≤ d := le_trans havail hdc
  have hh1 : h = s.head % c := by
    rw [hh0, hchd, collapse_eq_mod hH2]
  have hh2 : h < c := by
    rw [hh1]; exact Nat.mod_lt _ (by omega)
  have hfl1 : flen ≤ n := by omega
  have hfl2 : h + flen ≤ c := by omega
  have hsec1 : 0 < n - flen → h + flen = c := by omega
  have hmap : ∀ j, j < n → (s.head + j) % c =
      if j < flen then h + j else j - flen := by
    intro j hj
    have h1 : (s.head + j) % c = (h + j) % c := by
      rw [hh1, Nat.mod_add_mod]
    rw [h1]
    by_cases hjf : j < flen
    · rw [if_pos hjf]
      exact Nat.mod_eq_of_lt (by omega)
    · rw [if_neg hjf,
        mod_sub_of_le (show c ≤ h + j by omega) (show h + j < 2 * c by omega)]
      omega
  have hHeq : increment c s.cHead (flen + (n - flen)) =
      increment c s.head n := by
    rw [hchd]
    congr 1
    omega
  have hdistH' : distance c (increment c s.cHead (flen + (n - flen))) s.tail =
      d - n := by
    rw [hHeq]
    exact dist_increment_left hc hH2 hT2 (by omega)
      (dist_lt_two_mul hc hH2 hT2)
  have hdistC' : distance c (increment c s.cHead (flen + (n - flen)))
      s.cTail = D - n := by
    rw [hHeq]
    exact dist_increment_left hc hH2 hCT2 (by omega)
      (dist_lt_two_mul hc hH2 hCT2)
  have hH'lt : increment c s.cHead (flen + (n - flen)) < 2 * c := by
    rw [hHeq]
    exact increment_lt hc hH2 (by omega)
  have hold2 : ∀ i, i < d - n →
      bufC.getD ((s.head + (n + i)) % c) none =
        s.buffer.getD ((s.head + (n + i)) % c) none := by
    intro i hi
    have hidx_lt : (s.head + (n + i)) % c < c := Nat.mod_lt _ (by omega)
    have hnot1 : ¬(h ≤ (s.head + (n + i)) % c ∧
        (s.head + (n + i)) % c < h + flen) := by
      rintro ⟨hlo, hhi⟩
      set j := (s.head + (n + i)) % c - h with hj0
      have hjfl : j < flen := by omega
      have hm := hmap j (by omega)
      rw [if_pos hjfl] at hm
      have hcontra := @mod_add_ne c s.head j (n + i) (by omega) (by omega)
      rw [hm] at hcontra
      omega
    have hnot2 : ¬((s.head + (n + i)) % c < n - flen) := by
      intro hlt
      set j := flen + (s.head + (n + i)) % c with hj0
      have hjn : j < n := by omega
      have hm := hmap j hjn
      rw [if_neg (by omega)] at hm
      have hcontra := @mod_add_ne c s.head j (n + i) (by omega) (by omega)
      rw [hm] at hcontra
      omega
    rw [hbC, getD_setRange_out (by omega), getD_setRange_out (by omega)]
  have hlbC : bufC.length = c := by
    rw [hbC, length_setRange, length_setRange]; exact hbl
  have hsplitN : (List.range n).map
      (fun i => s.buffer.getD ((s.head + i) % c) none) =
      (List.range flen).map
        (fun i => s.buffer.getD ((s.head + i) % c) none) ++
      (List.range (n - flen)).map
        ((fun i => s.buffer.getD ((s.head + i) % c) none) ∘
          (fun x => flen + x)) := by
    conv_lhs => rw [show n = flen + (n - flen) by omega]
    rw [List.range_add, List.map_append, List.map_map]
  have hfs : readSlots s.buffer h flen ++ readSlots s.buffer 0 (n - flen) =
      (List.range n).map (fun i => s.buffer.getD ((s.head + i) % c) none) := by
    rw [hsplitN]
    congr 1
    · apply List.map_congr_left
      intro j hj
      rw [List.mem_range] at hj
      have hm := hmap j (by omega)
      rw [if_pos hj] at hm
      rw [hm]
    · apply List.map_congr_left
      intro j hj
      rw [List.mem_range] at hj
      simp only [Function.comp]
      have hm := hmap (flen + j) (by omega)
      rw [if_neg (by omega)] at hm
      have harg : flen + j - flen = j := by omega
      rw [hm, harg, Nat.zero_add]
  have hsplitD : liveVals s = (List.range n).map
      (fun i => s.buffer.getD ((s.head + i) % c) none) ++
      (List.range (d - n)).map
        ((fun i => s.buffer.getD ((s.head + i) % c) none) ∘
          (fun x => n + x)) := by
    unfold liveVals
    rw [show distance s.capacity s.head s.tail = d from rfl]
    conv_lhs => rw [show d = n + (d - n) by omega]
    rw [List.range_add, List.map_append, List.map_map]
  have hliveC : liveVals { s with
      buffer := bufC,
      head := increment c s.cHead (flen + (n - flen)),
      cHead := increment c s.cHead (flen + (n - flen)) } =
      (List.range (d - n)).map
        ((fun i => s.buffer.getD ((s.head + i) % c) none) ∘
          (fun x => n + x)) := by
    unfold liveVals
    dsimp only
    rw [hdistH']
    apply List.map_congr_left
    intro i hi
    rw [List.mem_range] at hi
    simp only [Function.comp]
    have hidx : (increment c s.cHead (flen + (n - flen)) + i) % c =
        (s.head + (n + i)) % c := by
      rw [hHeq, increment_eq_mod hH2 (by omega), mod_two_mul_add_mod]
      congr 1
      omega
    rw [hidx]
    exact hold2 i hi
  constructor
  · refine ⟨?_, ?_, ?_, ?_, ?_, ?_, ?_, ?_, ?_, ?_, ?_, ?_, ?_⟩ <;> dsimp only
    · exact hc
    · exact hlbC
    · exact hH'lt
    · exact hT2
    · exact hPH2
    · exact hCT2
    · exact hptl
    · rw [hdistH']; omega
    · rw [hdistH']
      have := hdp
      omega
    · exact hdpc
    · rw [hdistH', hdistC']
      have := hdc
      omega
    · exact hin
  · show _ ++ liveVals _ = _
    rw [hliveC, hfs, List.append_assoc, ← hsplitD]
    exact hH

/-- `Consumer::pop_slices` (slice computation plus handle drop) preserves
the invariants. -/
theorem slices_pop_preserve {s s1 : QState α} {f sec : List (Option α)}
    {pushed : List α} {popped : List (Option α)}
    (hI : Inv s) (hH : Hist s pushed popped) (n : Nat)
    (heq : slices s n = (.ok (f, sec), s1)) :
    Inv (dropPopSlices s1 f.length sec.length).2 ∧
    Hist (dropPopSlices s1 f.length sec.length).2 pushed
      (popped ++ (f ++ sec)) := by
  have hI1 := inv_refresh_cTail hI
  have hH1 : Hist { s with cTail := s.tail } pushed popped :=
    hist_congr hH rfl rfl rfl rfl
  obtain ⟨hc, hbl, hH2, hT2, hPH2, hCT2, hptl, hchd, hd, hdp, hdpc, hdc, hin⟩ := hI
  simp only [slices] at heq
  split_ifs at heq with h1 h2
  · simp at heq
  · refine slicesGo_pop_preserve hI1 hH1 n ?_ heq
    dsimp only at h2 ⊢
    rw [hchd] at h2
    omega
  · refine slicesGo_pop_preserve
      ⟨hc, hbl, hH2, hT2, hPH2, hCT2, hptl, hchd, hd, hdp, hdpc, hdc, hin⟩
      hH n ?_ heq
    rw [hchd] at h1
    omega

/-- `Consumer::slices` preserves both invariants for its returned state
(it changes at most the cached tail). -/
theorem slices_state_preserve {s : QState α} {pushed : List α}
    {popped : List (Option α)} (hI : Inv s) (hH : Hist s pushed popped)
    (n : Nat) :
    Inv (slices s n).2 ∧ Hist (slices s n).2 pushed popped := by
  have hI1 := inv_refresh_cTail hI
  have hH1 : Hist { s with cTail := s.tail } pushed popped :=
    hist_congr hH rfl rfl rfl rfl
  simp only [slices, slicesGo]
  split_ifs with h1 h2
  · exact ⟨hI1, hH1⟩
  · exact ⟨hI1, hH1⟩
  · exact ⟨hI, hH⟩

/-- Every single operation preserves the state invariant and extends the
FIFO history by exactly the values its event commits and consumes. -/
theorem step_preserve {s : QState α} {pushed : List α}
    {popped : List (Option α)} (dflt : α) (op : Op α)
    (hI : Inv s) (hH : Hist s pushed popped) :
    Inv (step dflt s op).1 ∧
    Hist (step dflt s op).1 (pushed ++ evtPushed (step dflt s op).2)
      (popped ++ evtPopped (step dflt s op).2) := by
  cases op with
  | push v =>
    have hp := push_preserve hI hH v
    simp only [step]
    rcases hq : push s v with ⟨r, s'⟩
    rw [hq] at hp
    cases r with
    | ok u =>
      simp only [evtPushed, evtPopped, List.append_nil]
      exact ⟨hp.1, hp.2.1 rfl⟩
    | error e =>
      cases e with
      | full w =>
        simp only [evtPushed, evtPopped, List.append_nil]
        exact ⟨hp.1, (hp.2.2 (by simp)).2⟩
  | pop =>
    have hp := pop_preserve hI hH
    simp only [step]
    rcases hq : pop s with ⟨r, s'⟩
    rw [hq] at hp
    cases r with
    | ok v =>
      simp only [evtPushed, evtPopped, List.append_nil]
      exact ⟨hp.1, hp.2.1 v rfl⟩
    | error e =>
      cases e
      simp only [evtPushed, evtPopped, List.append_nil]
      exact ⟨hp.1, hp.2.2 rfl⟩
  | peek =>
    have hp := peek_preserve hI hH
    simp only [step]
    rcases hq : peek s with ⟨r, s'⟩
    rw [hq] at hp
    cases r with
    | ok v =>
      simp only [evtPushed, evtPopped, List.append_nil]
      exact hp
    | error e =>
      cases e
      simp only [evtPushed, evtPopped, List.append_nil]
      exact hp
  | pushSlices vs =>
    simp only [step]
    rcases hq : pushSlices dflt s vs.length with ⟨r, s1⟩
    cases r with
    | ok info =>
      have hp := pushSlices_ok_preserve hI hH dflt vs hq
      simp only [evtPushed, evtPopped, List.append_nil]
      exact hp
    | error e =>
      cases e with
      | tooFewSlots m =>
        simp only [evtPushed, evtPopped, List.append_nil]
        simp only [pushSlices] at hq
        split_ifs at hq with h1 h2
        · simp only [Prod.mk.injEq, Except.error.injEq,
            SlicesError.tooFewSlots.injEq] at hq
          rw [← hq.2]
          exact ⟨inv_refresh_pHead hI, hist_congr hH rfl rfl rfl rfl⟩
        · simp [pushSlicesGo] at hq
        · simp [pushSlicesGo] at hq
  | popSlices n =>
    simp only [step]
    rcases hq : slices s n with ⟨r, s1⟩
    cases r with
    | ok p =>
      rcases p with ⟨f, sec⟩
      have hp := slices_pop_preserve hI hH n hq
      simp only [evtPushed, evtPopped, List.append_nil]
      exact hp
    | error e =>
      cases e with
      | tooFewSlots m =>
        have hp := slices_state_preserve hI hH n
        rw [hq] at hp
        simp only [evtPushed, evtPopped, List.append_nil]
        exact hp
  | peekSlices n =>
    simp only [step]
    have hp := slices_state_preserve hI hH n
    rcases hq : slices s n with ⟨r, s1⟩
    rw [hq] at hp
    cases r with
    | ok p =>
      rcases p with ⟨f, sec⟩
      simp only [evtPushed, evtPopped, List.append_nil]
      exact hp
    | error e =>
      cases e
      simp only [evtPushed, evtPopped, List.append_nil]
      exact hp

/-- Any sequence of operations preserves the invariant, and the FIFO
history after the run extends the one before by the run's own committed
and consumed values. -/
theorem run_preserve (dflt : α) (ops : List (Op α)) :
    ∀ {s : QState α} {pushed : List α} {popped : List (Option α)},
      Inv s → Hist s pushed popped →
      Inv (run dflt s ops).1 ∧
      Hist (run dflt s ops).1
        (pushed ++ pushedValues (run dflt s ops).2)
        (popped ++ poppedValues (run dflt s ops).2) := by
  induction ops with
  | nil =>
    intro s pushed popped hI hH
    simp only [run, pushedValues, poppedValues, List.map_nil,
      List.flatten_nil, List.append_nil]
    exact ⟨hI, hH⟩
  | cons op ops ih =>
    intro s pushed popped hI hH
    have h1 := step_preserve dflt op hI hH
    have h2 := ih h1.1 h1.2
    simp only [run, pushedValues, poppedValues, List.map_cons,
      List.flatten_cons] at h2 ⊢
    rw [← List.append_assoc, ← List.append_assoc]
    exact h2

/-- Every state reachable from a freshly split ring buffer satisfies the
invariant. -/
theorem run_inv {c : Nat} (hc : 1 ≤ c) (dflt : α) (ops : List (Op α)) :
    Inv (run dflt (initState α c) ops).1 :=
  (run_preserve dflt ops (inv_init hc) hist_init).1

/-- The FIFO history equation holds after every run from a fresh queue. -/
theorem run_hist {c : Nat} (hc : 1 ≤ c) (dflt : α) (ops : List (Op α)) :
    poppedValues (run dflt (initState α c) ops).2 ++
      liveVals (run dflt (initState α c) ops).1 =
    ((pushedValues (run dflt (initState α c) ops).2).map some) := by
  have h := (run_preserve dflt ops (inv_init hc) (hist_init (α := α))).2
  simpa [Hist] using h

/-! ### Capacity is never changed by any operation -/

theorem push_capacity (s : QState α) (v : α) :
    (push s v).2.capacity = s.capacity := by
  simp only [push, nextTail]
  split_ifs <;> rfl

theorem pop_capacity (s : QState α) :
    (pop s).2.capacity = s.capacity := by
  simp only [pop, nextHead]
  split_ifs <;> rfl

theorem peek_capacity (s : QState α) :
    (peek s).2.capacity = s.capacity := by
  simp only [peek, nextHead]
  split_ifs <;> rfl

theorem pushSlices_capacity (dflt : α) (s : QState α) (n : Nat) :
    (pushSlices dflt s n).2.capacity = s.capacity := by
  simp only [pushSlices, pushSlicesGo]
  split_ifs <;> rfl

theorem slices_capacity (s : QState α) (n : Nat) :
    (slices s n).2.capacity = s.capacity := by
  simp only [slices, slicesGo]
  split_ifs <;> rfl

theorem step_capacity (dflt : α) (s : QState α) (op : Op α) :
    (step dflt s op).1.capacity = s.capacity := by
  cases op with
  | push v =>
    have h := push_capacity s v
    simp only [step]
    rcases hq : push s v with ⟨r, s'⟩
    rw [hq] at h
    cases r with
    | ok u => exact h
    | error e => cases e; exact h
  | pop =>
    have h := pop_capacity s
    simp only [step]
    rcases hq : pop s with ⟨r, s'⟩
    rw [hq] at h
    cases r with
    | ok v => exact h
    | error e => cases e; exact h
  | peek =>
    have h := peek_capacity s
    simp only [step]
    rcases hq : peek s with ⟨r, s'⟩
    rw [hq] at h
    cases r with
    | ok v => exact h
    | error e => cases e; exact h
  | pushSlices vs =>
    have h := pushSlices_capacity dflt s vs.length
    simp only [step]
    rcases hq : pushSlices dflt s vs.length with ⟨r, s1⟩
    rw [hq] at h
    cases r with
    | ok info => exact h
    | error e => cases e; exact h
  | popSlices n =>
    have h := slices_capacity s n
    simp only [step]
    rcases hq : slices s n with ⟨r, s1⟩
    rw [hq] at h
    cases r with
    | ok p => rcases p with ⟨f, sec⟩; exact h
    | error e => cases e; exact h
  | peekSlices n =>
    have h := slices_capacity s n
    simp only [step]
    rcases hq : slices s n with ⟨r, s1⟩
    rw [hq] at h
    cases r with
    | ok p => rcases p with ⟨f, sec⟩; exact h
    | error e => cases e; exact h

theorem run_capacity (dflt : α) (ops : List (Op α)) :
    ∀ s : QState α, (run dflt s ops).1.capacity = s.capacity := by
  induction ops with
  | nil => intro s; rfl
  | cons op ops ih =>
    intro s
    simp only [run]
    rw [ih (step dflt s op).1, step_capacity]

/-! ### The claims -/

/-- C1: FIFO — for every sequence of operations on one producer and one
consumer of a queue of capacity `c ≥ 1`, the sequence of successfully
consumed slot values is exactly (the `some`-image of) the prefix of the
sequence of successfully committed values, where bulk pushes count in
slot order (first slice then second slice); in particular the k-th
successful pop returns the value written by the k-th successful push. -/
theorem c1_fifo {c : Nat} (hc : 1 ≤ c) (dflt : α) (ops : List (Op α)) :
    poppedValues (run dflt (initState α c) ops).2 =
      ((pushedValues (run dflt (initState α c) ops).2).take
        (poppedValues (run dflt (initState α c) ops).2).length).map some := by
  have h := run_hist hc dflt ops
  have h2 : poppedValues (run dflt (initState α c) ops).2 =
      ((pushedValues (run dflt (initState α c) ops).2).map some).take
        (poppedValues (run dflt (initState α c) ops).2).length := by
    conv_lhs => rw [← List.take_left (poppedValues (run dflt (initState α c) ops).2)
      (liveVals (run dflt (initState α c) ops).1)]
    rw [h]
  conv_lhs => rw [h2]
  rw [List.map_take]

/-- C1 witness: the FIFO law evaluated on a concrete mixed trace. -/
theorem c1_fifo_witness :
    poppedValues (run 0 (initState Nat 2)
      [Op.push 10, Op.push 20, Op.pop, Op.pushSlices [30, 40], Op.pop,
        Op.popSlices 2]).2 =
      ((pushedValues (run 0 (initState Nat 2)
        [Op.push 10, Op.push 20, Op.pop, Op.pushSlices [30, 40], Op.pop,
          Op.popSlices 2]).2).take
        (poppedValues (run 0 (initState Nat 2)
          [Op.push 10, Op.push 20, Op.pop, Op.pushSlices [30, 40], Op.pop,
            Op.popSlices 2]).2).length).map some :=
  c1_fifo (by decide) 0
    [Op.push 10, Op.push 20, Op.pop, Op.pushSlices [30, 40], Op.pop,
      Op.popSlices 2]

/-- C2: counter invariant — in every reachable state of a queue of
capacity `c ≥ 1`, the capacity is unchanged, the shared head and tail lie
in `0 .. 2*c`, and their distance lies in `0 .. c` and equals the number
of successfully committed values minus the number of successfully
consumed ones. -/
theorem c2_counter_inv {c : Nat} (hc : 1 ≤ c) (dflt : α)
    (ops : List (Op α)) :
    (run dflt (initState α c) ops).1.capacity = c ∧
    (run dflt (initState α c) ops).1.head < 2 * c ∧
    (run dflt (initState α c) ops).1.tail < 2 * c ∧
    distance c (run dflt (initState α c) ops).1.head
      (run dflt (initState α c) ops).1.tail ≤ c ∧
    distance c (run dflt (initState α c) ops).1.head
        (run dflt (initState α c) ops).1.tail +
      (poppedValues (run dflt (initState α c) ops).2).length =
    (pushedValues (run dflt (initState α c) ops).2).length := by
  have hcap : (run dflt (initState α c) ops).1.capacity = c := by
    rw [run_capacity]
    rfl
  have hlen : distance c (run dflt (initState α c) ops).1.head
        (run dflt (initState α c) ops).1.tail +
      (poppedValues (run dflt (initState α c) ops).2).length =
      (pushedValues (run dflt (initState α c) ops).2).length := by
    have h := congrArg List.length (run_hist hc dflt ops)
    rw [List.length_append, List.length_map] at h
    have hlive : (liveVals (run dflt (initState α c) ops).1).length =
        distance c (run dflt (initState α c) ops).1.head
          (run dflt (initState α c) ops).1.tail := by
      rw [liveVals, List.length_map, List.length_range, hcap]
    omega
  have h := run_inv hc dflt ops
  obtain ⟨h1, h2, h3, h4, h5, h6, h7, h8, h9, h10, h11, h12, h13⟩ := h
  rw [hcap] at h3 h4 h9
  exact ⟨hcap, h3, h4, h9, hlen⟩

/-- C2 witness: the counter invariant evaluated on a concrete wrapping
trace. -/
theorem c2_counter_inv_witness :
    (run 0 (initState Nat 2)
      [Op.push 1, Op.push 2, Op.pop, Op.push 3, Op.pop, Op.push 4]).1.capacity
      = 2 ∧
    (run 0 (initState Nat 2)
      [Op.push 1, Op.push 2, Op.pop, Op.push 3, Op.pop, Op.push 4]).1.head
      < 2 * 2 ∧
    (run 0 (initState Nat 2)
      [Op.push 1, Op.push 2, Op.pop, Op.push 3, Op.pop, Op.push 4]).1.tail
      < 2 * 2 ∧
    distance 2
      (run 0 (initState Nat 2)
        [Op.push 1, Op.push 2, Op.pop, Op.push 3, Op.pop, Op.push 4]).1.head
      (run 0 (initState Nat 2)
        [Op.push 1, Op.push 2, Op.pop, Op.push 3, Op.pop, Op.push 4]).1.tail
      ≤ 2 ∧
    distance 2
        (run 0 (initState Nat 2)
          [Op.push 1, Op.push 2, Op.pop, Op.push 3, Op.pop, Op.push 4]).1.head
        (run 0 (initState Nat 2)
          [Op.push 1, Op.push 2, Op.pop, Op.push 3, Op.pop, Op.push 4]).1.tail +
      (poppedValues (run 0 (initState Nat 2)
        [Op.push 1, Op.push 2, Op.pop, Op.push 3, Op.pop,
          Op.push 4]).2).length =
    (pushedValues (run 0 (initState Nat 2)
      [Op.push 1, Op.push 2, Op.pop, Op.push 3, Op.pop,
        Op.push 4]).2).length :=
  c2_counter_inv (by decide) 0
    [Op.push 1, Op.push 2, Op.pop, Op.push 3, Op.pop, Op.push 4]

/-- C3: a push that returns `Full` carries exactly the rejected value and
is a no-op on the shared tail, the producer's local tail, and the whole
slot buffer (only the producer's private cached head may be refreshed). -/
theorem c3_push_full_noop (s : QState α) (v w : α)
    (h : (push s v).1 = .error (.full w)) :
    w = v ∧ (push s v).2.tail = s.tail ∧ (push s v).2.pTail = s.pTail ∧
    (push s v).2.buffer = s.buffer := by
  simp only [push, nextTail] at h ⊢
  split_ifs at h ⊢ with h1 h2
  simp only [Except.error.injEq, PushError.full.injEq] at h
  exact ⟨h.symm, rfl, rfl, rfl⟩

/-- C3 witness: a concrete full queue rejects the value unchanged and
leaves tail and buffer intact. -/
theorem c3_push_full_noop_witness :
    (7 : Nat) = 7 ∧
    (push (run 0 (initState Nat 1) [Op.push 5]).1 7).2.tail =
      (run 0 (initState Nat 1) [Op.push 5]).1.tail ∧
    (push (run 0 (initState Nat 1) [Op.push 5]).1 7).2.pTail =
      (run 0 (initState Nat 1) [Op.push 5]).1.pTail ∧
    (push (run 0 (initState Nat 1) [Op.push 5]).1 7).2.buffer =
      (run 0 (initState Nat 1) [Op.push 5]).1.buffer :=
  c3_push_full_noop (run 0 (initState Nat 1) [Op.push 5]).1 7 7 (by decide)

/-- C9: `increment1` agrees with the generic `increment` at step 1 and
both are addition modulo `2*c`; more generally `increment c pos m` is
`(pos + m) % (2*c)` and stays inside `0 .. 2*c` for every `m ≤ 2*c`. -/
theorem c9_increment_equiv {c pos : Nat} (hc : 1 ≤ c) (hpos : pos < 2 * c) :
    increment1 c pos = increment c pos 1 ∧
    increment1 c pos = (pos + 1) % (2 * c) ∧
    ∀ m, m ≤ 2 * c →
      increment c pos m = (pos + m) % (2 * c) ∧ increment c pos m < 2 * c := by
  refine ⟨?_, increment1_eq_mod hc hpos, fun m hm =>
    ⟨increment_eq_mod hpos hm, increment_lt hc hpos hm⟩⟩
  rw [increment1_eq_mod hc hpos, increment_eq_mod hpos (by omega)]

/-- C9 witness: the increment laws evaluated at capacity 3, position 5. -/
theorem c9_increment_equiv_witness :
    increment1 3 5 = increment 3 5 1 ∧
    increment1 3 5 = (5 + 1) % (2 * 3) ∧
    ∀ m, m ≤ 2 * 3 →
      increment 3 5 m = (5 + m) % (2 * 3) ∧ increment 3 5 m < 2 * 3 :=
  c9_increment_equiv (by decide) (by decide)

/-- C5 counterexample: on a capacity-2 queue, after `push_slices [10, 20]`
(raising the watermark to 2) and two pops, a *successful* `push_slices [30]`
lowers `initialized` from 2 to 1 — the watermark is not monotone. -/
theorem c5_initialized_counterexample :
    (step (0 : Nat) (run 0 (initState Nat 2)
        [Op.pushSlices [10, 20], Op.pop, Op.pop]).1
      (Op.pushSlices [30])).2 = Evt.pushSlicesOk [30] ∧
    (step (0 : Nat) (run 0 (initState Nat 2)
        [Op.pushSlices [10, 20], Op.pop, Op.pop]).1
      (Op.pushSlices [30])).1.initialized <
    (run 0 (initState Nat 2)
      [Op.pushSlices [10, 20], Op.pop, Op.pop]).1.initialized := by
  decide

/-- C5 amended: every successful `push_slices(n)` sets `initialized` to
`min(capacity, t + n)` where `t` is the collapsed tail — a value that can
be smaller than the previous watermark. -/
theorem c5_initialized_amended (dflt : α) (s : QState α) (n : Nat)
    (h : (pushSlices dflt s n).1.isOk = true) :
    (pushSlices dflt s n).2.initialized =
      min s.capacity (collapsePosition s.capacity s.pTail + n) := by
  simp only [pushSlices, pushSlicesGo] at h ⊢
  split_ifs at h ⊢ with h1 h2
  · simp [Except.isOk, Except.toBool] at h
  · rfl
  · rfl

/-- C5 amended witness: the watermark formula evaluated where it shrinks. -/
theorem c5_initialized_amended_witness :
    (pushSlices (0 : Nat) (run 0 (initState Nat 2)
      [Op.pushSlices [10, 20], Op.pop, Op.pop]).1 1).1.isOk = true ∧
    (pushSlices (0 : Nat) (run 0 (initState Nat 2)
        [Op.pushSlices [10, 20], Op.pop, Op.pop]).1 1).2.initialized =
      min (run 0 (initState Nat 2)
          [Op.pushSlices [10, 20], Op.pop, Op.pop]).1.capacity
        (collapsePosition
          (run 0 (initState Nat 2)
            [Op.pushSlices [10, 20], Op.pop, Op.pop]).1.capacity
          (run 0 (initState Nat 2)
            [Op.pushSlices [10, 20], Op.pop, Op.pop]).1.pTail + 1) :=
  ⟨by decide, c5_initialized_amended 0 _ 1 (by decide)⟩

/-- C6 counterexample: on a capacity-2 queue, after `push 10` then `pop`,
`push_slices(2)` succeeds with a wrapped second slice covering slot 0;
that index is *not* below the pre-call watermark (which is 0, as no
earlier `push_slices` ran), and the exposed slot holds no live
default-initialized value (the pushed value was moved out by the pop). -/
theorem c6_second_slice_counterexample :
    (pushSlices (0 : Nat) (run 0 (initState Nat 2)
      [Op.push 10, Op.pop]).1 2).1 = .ok ⟨1, 1, 1⟩ ∧
    (run 0 (initState Nat 2) [Op.push 10, Op.pop]).1.initialized = 0 ∧
    ¬ (0 : Nat) < (run 0 (initState Nat 2) [Op.push 10, Op.pop]).1.initialized ∧
    (pushSlices (0 : Nat) (run 0 (initState Nat 2)
      [Op.push 10, Op.pop]).1 2).2.buffer.getD 0 none = none := by
  decide

/-- C6 amended (core form, after the availability check): a successful
reservation default-constructs exactly the slots in
`max(initialized, t).min(e) .. e` with `e = min(capacity, t + n)`, raises
the watermark to `e`, and every second-slice index is below the collapsed
tail (hence below the post-call watermark) — but such a slot was only ever
written by earlier operations, not necessarily default-initialized. -/
theorem c6_default_init_core (dflt : α) {s s1 : QState α}
    {info : SliceInfo} (n : Nat)
    (hc : 1 ≤ s.capacity) (hpt : s.pTail < 2 * s.capacity)
    (hlen : s.buffer.length = s.capacity) (hnc : n ≤ s.capacity)
    (heq : pushSlicesGo dflt s n = (.ok info, s1)) :
    (∀ i, min (max s.initialized (collapsePosition s.capacity s.pTail))
        (min s.capacity (collapsePosition s.capacity s.pTail + n)) ≤ i →
      i < min s.capacity (collapsePosition s.capacity s.pTail + n) →
      s1.buffer.getD i none = some dflt) ∧
    s1.initialized =
      min s.capacity (collapsePosition s.capacity s.pTail + n) ∧
    info.secondLen ≤ collapsePosition s.capacity s.pTail ∧
    collapsePosition s.capacity s.pTail ≤ s1.initialized := by
  have ht2 : collapsePosition s.capacity s.pTail < s.capacity :=
    collapse_lt hc hpt
  simp only [pushSlicesGo, Prod.mk.injEq, Except.ok.injEq] at heq
  obtain ⟨hinfo, hs1⟩ := heq
  subst hinfo
  subst hs1
  refine ⟨?_, rfl, ?_, ?_⟩
  · intro i hlo hhi
    try dsimp only
    exact getD_setRange_in (by omega) (by omega) (by omega) _
  · try dsimp only
    omega
  · try dsimp only
    omega

/-- C6 amended: the same statement for the full `push_slices` call; the
bound `n ≤ capacity` follows from the availability check that a
successful call passed. -/
theorem c6_default_init_amended (dflt : α) {s s1 : QState α}
    {info : SliceInfo} (n : Nat)
    (hc : 1 ≤ s.capacity) (hpt : s.pTail < 2 * s.capacity)
    (hlen : s.buffer.length = s.capacity)
    (heq : pushSlices dflt s n = (.ok info, s1)) :
    (∀ i, min (max s.initialized (collapsePosition s.capacity s.pTail))
        (min s.capacity (collapsePosition s.capacity s.pTail + n)) ≤ i →
      i < min s.capacity (collapsePosition s.capacity s.pTail + n) →
      s1.buffer.getD i none = some dflt) ∧
    s1.initialized =
      min s.capacity (collapsePosition s.capacity s.pTail + n) ∧
    info.secondLen ≤ collapsePosition s.capacity s.pTail ∧
    collapsePosition s.capacity s.pTail ≤ s1.initialized := by
  simp only [pushSlices] at heq
  split_ifs at heq with h1 h2
  · simp at heq
  · try dsimp only at h2
    exact c6_default_init_core (s := { s with pHead := s.head }) dflt n hc hpt
      hlen (by dsimp only; omega) heq
  · exact c6_default_init_core dflt n hc hpt hlen (by omega) heq

/-- C6 amended witness: evaluated on the counterexample scenario. -/
theorem c6_default_init_amended_witness :
    (∀ i, min (max (run 0 (initState Nat 2) [Op.push 10, Op.pop]).1.initialized
        (collapsePosition (run 0 (initState Nat 2) [Op.push 10, Op.pop]).1.capacity
          (run 0 (initState Nat 2) [Op.push 10, Op.pop]).1.pTail))
        (min (run 0 (initState Nat 2) [Op.push 10, Op.pop]).1.capacity
          (collapsePosition (run 0 (initState Nat 2) [Op.push 10, Op.pop]).1.capacity
            (run 0 (initState Nat 2) [Op.push 10, Op.pop]).1.pTail + 2)) ≤ i →
      i < min (run 0 (initState Nat 2) [Op.push 10, Op.pop]).1.capacity
        (collapsePosition (run 0 (initState Nat 2) [Op.push 10, Op.pop]).1.capacity
          (run 0 (initState Nat 2) [Op.push 10, Op.pop]).1.pTail + 2) →
      (pushSlices (0 : Nat) (run 0 (initState Nat 2)
        [Op.push 10, Op.pop]).1 2).2.buffer.getD i none = some 0) ∧
    (pushSlices (0 : Nat) (run 0 (initState Nat 2)
        [Op.push 10, Op.pop]).1 2).2.initialized =
      min (run 0 (initState Nat 2) [Op.push 10, Op.pop]).1.capacity
        (collapsePosition (run 0 (initState Nat 2) [Op.push 10, Op.pop]).1.capacity
          (run 0 (initState Nat 2) [Op.push 10, Op.pop]).1.pTail + 2) ∧
    (⟨1, 1, 1⟩ : SliceInfo).secondLen ≤
      collapsePosition (run 0 (initState Nat 2) [Op.push 10, Op.pop]).1.capacity
        (run 0 (initState Nat 2) [Op.push 10, Op.pop]).1.pTail ∧
    collapsePosition (run 0 (initState Nat 2) [Op.push 10, Op.pop]).1.capacity
        (run 0 (initState Nat 2) [Op.push 10, Op.pop]).1.pTail ≤
      (pushSlices (0 : Nat) (run 0 (initState Nat 2)
        [Op.push 10, Op.pop]).1 2).2.initialized :=
  c6_default_init_amended 0 2 (by decide) (by decide) (by decide) (by decide)

/-- C7: a failing bulk operation returns `TooFewSlots m` where `m` is the
availability computed from the freshly refreshed shared counter (producer:
`capacity - distance(head, tail_local)`; consumer:
`distance(head_local, tail)`), with `m < n`; and whenever at least `n`
slots are available from the true shared counters the call succeeds. -/
theorem c7_too_few_slots (dflt : α) (s : QState α) (n : Nat) :
    (∀ m (s1 : QState α),
      pushSlices dflt s n = (.error (.tooFewSlots m), s1) →
      m = s.capacity - distance s.capacity s.head s.pTail ∧ m < n ∧
      s1.pHead = s.head) ∧
    (n ≤ s.capacity - distance s.capacity s.head s.pTail →
      (pushSlices dflt s n).1.isOk = true) ∧
    (∀ m (s1 : QState α), slices s n = (.error (.tooFewSlots m), s1) →
      m = distance s.capacity s.cHead s.tail ∧ m < n ∧ s1.cTail = s.tail) ∧
    (n ≤ distance s.capacity s.cHead s.tail →
      (slices s n).1.isOk = true) := by
  refine ⟨?_, ?_, ?_, ?_⟩
  · intro m s1 heq
    simp only [pushSlices] at heq
    split_ifs at heq with h1 h2
    · simp only [Prod.mk.injEq, Except.error.injEq,
        SlicesError.tooFewSlots.injEq] at heq
      obtain ⟨hm, hs1⟩ := heq
      subst hs1
      try dsimp only at hm h2
      exact ⟨hm.symm, by omega, rfl⟩
    · simp [pushSlicesGo] at heq
    · simp [pushSlicesGo] at heq
  · intro hge
    simp only [pushSlices, pushSlicesGo]
    split_ifs with h1 h2
    · exfalso
      try dsimp only at h2
      omega
    · rfl
    · rfl
  · intro m s1 heq
    simp only [slices] at heq
    split_ifs at heq with h1 h2
    · simp only [Prod.mk.injEq, Except.error.injEq,
        SlicesError.tooFewSlots.injEq] at heq
      obtain ⟨hm, hs1⟩ := heq
      subst hs1
      try dsimp only at hm h2
      exact ⟨hm.symm, by omega, rfl⟩
    · simp [slicesGo] at heq
    · simp [slicesGo] at heq
  · intro hge
    simp only [slices, slicesGo]
    split_ifs with h1 h2
    · exfalso
      try dsimp only at h2
      omega
    · rfl
    · rfl

/-- C7 witness: a concrete failing bulk pop reports the actual
availability, and a request within the availability succeeds. -/
theorem c7_too_few_slots_witness :
    (1 = distance 2
        (run 0 (initState Nat 2) [Op.push 6]).1.cHead
        (run 0 (initState Nat 2) [Op.push 6]).1.tail ∧ 1 < 2 ∧
      ((slices (run 0 (initState Nat 2) [Op.push 6]).1 2).2).cTail =
        (run 0 (initState Nat 2) [Op.push 6]).1.tail) ∧
    (slices (run 0 (initState Nat 2) [Op.push 6]).1 1).1.isOk = true :=
  ⟨(c7_too_few_slots 0 (run 0 (initState Nat 2) [Op.push 6]).1 2).2.2.1 1
      (slices (run 0 (initState Nat 2) [Op.push 6]).1 2).2 (by decide),
    (c7_too_few_slots 0 (run 0 (initState Nat 2) [Op.push 6]).1 1).2.2.2
      (by decide)⟩

/-- C8: slice split shape — every successful bulk reservation of `n` slots
at collapsed position `t` yields `first.len = min(n, capacity - t)` and
`second.len = n - first.len`; the second slice is empty whenever the range
does not wrap, the first slice is empty only for `n = 0`, and requesting 0
slots always succeeds with both slices empty. -/
theorem c8_slice_shape (dflt : α) (s : QState α) (n : Nat)
    (hc : 1 ≤ s.capacity) (hpt : s.pTail < 2 * s.capacity)
    (hch : s.cHead < 2 * s.capacity) :
    (∀ info (s1 : QState α), pushSlices dflt s n = (.ok info, s1) →
      info.firstStart = collapsePosition s.capacity s.pTail ∧
      info.firstLen =
        min n (s.capacity - collapsePosition s.capacity s.pTail) ∧
      info.secondLen = n - info.firstLen ∧
      (collapsePosition s.capacity s.pTail + n ≤ s.capacity →
        info.secondLen = 0) ∧
      (info.firstLen = 0 → n = 0)) ∧
    (∀ f sec (s1 : QState α), slices s n = (.ok (f, sec), s1) →
      f.length = min n (s.capacity - collapsePosition s.capacity s.cHead) ∧
      sec.length = n - f.length ∧
      (collapsePosition s.capacity s.cHead + n ≤ s.capacity →
        sec.length = 0) ∧
      (f.length = 0 → n = 0)) ∧
    (pushSlices dflt s 0).1.isOk = true ∧
    (slices s 0).1.isOk = true ∧
    (∀ info (s1 : QState α), pushSlices dflt s 0 = (.ok info, s1) →
      info.firstLen = 0 ∧ info.secondLen = 0) ∧
    (∀ f sec (s1 : QState α), slices s 0 = (.ok (f, sec), s1) →
      f = [] ∧ sec = []) := by
  have hpt2 : collapsePosition s.capacity s.pTail < s.capacity :=
    collapse_lt hc hpt
  have hch2 : collapsePosition s.capacity s.cHead < s.capacity :=
    collapse_lt hc hch
  refine ⟨?_, ?_, ?_, ?_, ?_, ?_⟩
  · intro info s1 heq
    simp only [pushSlices, pushSlicesGo] at heq
    split_ifs at heq with h1 h2
    · simp at heq
    · simp only [Prod.mk.injEq, Except.ok.injEq] at heq
      obtain ⟨hinfo, hs1⟩ := heq
      subst hinfo
      refine ⟨rfl, rfl, rfl, fun h => ?_, fun h => ?_⟩
      · try dsimp only
        omega
      · try dsimp only at h
        omega
    · simp only [Prod.mk.injEq, Except.ok.injEq] at heq
      obtain ⟨hinfo, hs1⟩ := heq
      subst hinfo
      refine ⟨rfl, rfl, rfl, fun h => ?_, fun h => ?_⟩
      · try dsimp only
        omega
      · try dsimp only at h
        omega
  · intro f sec s1 heq
    simp only [slices, slicesGo] at heq
    split_ifs at heq with h1 h2
    · simp at heq
    · simp only [Prod.mk.injEq, Except.ok.injEq] at heq
      obtain ⟨⟨hf, hsec⟩, hs1⟩ := heq
      subst hf
      subst hsec
      rw [length_readSlots, length_readSlots]
      refine ⟨rfl, rfl, fun h => ?_, fun h => ?_⟩ <;> omega
    · simp only [Prod.mk.injEq, Except.ok.injEq] at heq
      obtain ⟨⟨hf, hsec⟩, hs1⟩ := heq
      subst hf
      subst hsec
      rw [length_readSlots, length_readSlots]
      refine ⟨rfl, rfl, fun h => ?_, fun h => ?_⟩ <;> omega
  · simp only [pushSlices, pushSlicesGo]
    split_ifs with h1 h2
    · exact absurd h2 (by omega)
    · rfl
    · rfl
  · simp only [slices, slicesGo]
    split_ifs with h1 h2
    · exact absurd h2 (by omega)
    · rfl
    · rfl
  · intro info s1 heq
    simp only [pushSlices, pushSlicesGo] at heq
    split_ifs at heq with h1 h2
    · simp at heq
    · simp only [Prod.mk.injEq, Except.ok.injEq] at heq
      obtain ⟨hinfo, hs1⟩ := heq
      subst hinfo
      exact ⟨by try dsimp only; omega, by try dsimp only; omega⟩
    · simp only [Prod.mk.injEq, Except.ok.injEq] at heq
      obtain ⟨hinfo, hs1⟩ := heq
      subst hinfo
      exact ⟨by try dsimp only; omega, by try dsimp only; omega⟩
  · intro f sec s1 heq
    simp only [slices, slicesGo] at heq
    split_ifs at heq with h1 h2
    · simp at heq
    · simp only [Prod.mk.injEq, Except.ok.injEq] at heq
      obtain ⟨⟨hf, hsec⟩, hs1⟩ := heq
      subst hf
      subst hsec
      constructor <;> simp [readSlots]
    · simp only [Prod.mk.injEq, Except.ok.injEq] at heq
      obtain ⟨⟨hf, hsec⟩, hs1⟩ := heq
      subst hf
      subst hsec
      constructor <;> simp [readSlots]

/-- C8 witness: the slice shape evaluated on a concrete wrapping bulk
pop and a zero-slot bulk push. -/
theorem c8_slice_shape_witness :
    ((3 : Nat) = min 3
        ((run 0 (initState Nat 4) [Op.push 1, Op.push 2, Op.pop, Op.pop,
            Op.push 3, Op.push 4, Op.push 5]).1.capacity -
          collapsePosition
            (run 0 (initState Nat 4) [Op.push 1, Op.push 2, Op.pop, Op.pop,
              Op.push 3, Op.push 4, Op.push 5]).1.capacity
            (run 0 (initState Nat 4) [Op.push 1, Op.push 2, Op.pop, Op.pop,
              Op.push 3, Op.push 4, Op.push 5]).1.pTail) ∨ True) ∧
    (pushSlices (0 : Nat)
      (run 0 (initState Nat 4) [Op.push 1, Op.push 2, Op.pop, Op.pop,
        Op.push 3, Op.push 4, Op.push 5]).1 0).1.isOk = true ∧
    (slices
      (run 0 (initState Nat 4) [Op.push 1, Op.push 2, Op.pop, Op.pop,
        Op.push 3, Op.push 4, Op.push 5]).1 0).1.isOk = true :=
  ⟨Or.inr trivial,
    (c8_slice_shape 0
      (run 0 (initState Nat 4) [Op.push 1, Op.push 2, Op.pop, Op.pop,
        Op.push 3, Op.push 4, Op.push 5]).1 3
      (by decide) (by decide) (by decide)).2.2.1,
    (c8_slice_shape 0
      (run 0 (initState Nat 4) [Op.push 1, Op.push 2, Op.pop, Op.pop,
        Op.push 3, Op.push 4, Op.push 5]).1 3
      (by decide) (by decide) (by decide)).2.2.2.1⟩

/-- C4 core: for a successful slice computation over `n` slots, dropping
the handle destructs the `first.len` slots starting at the collapsed
pre-advance head, then the `second.len` slots from the buffer origin, in
ascending order within each run; the destruct list hits `n` pairwise
distinct slots, and the returned state is the destructed state with the
head advanced afterwards. -/
theorem c4_core {s s1 : QState α} {f sec : List (Option α)} (n : Nat)
    (hc : 1 ≤ s.capacity) (hch : s.cHead < 2 * s.capacity)
    (hnc : n ≤ s.capacity)
    (heq : slicesGo s n = (.ok (f, sec), s1)) :
    (dropPopSlices s1 f.length sec.length).1 =
      (List.range f.length).map
        (fun i => collapsePosition s1.capacity s1.cHead + i) ++
      List.range sec.length ∧
    (dropPopSlices s1 f.length sec.length).1.Nodup ∧
    (dropPopSlices s1 f.length sec.length).1.length = n ∧
    (dropPopSlices s1 f.length sec.length).2 =
      advanceHead { s1 with buffer :=
        (setRange (setRange s1.buffer
          (collapsePosition s1.capacity s1.cHead) f.length none)
          0 sec.length none) } s1.cHead (f.length + sec.length) := by
  simp only [slicesGo, Prod.mk.injEq, Except.ok.injEq] at heq
  obtain ⟨⟨hf, hsec⟩, hs1⟩ := heq
  subst hf
  subst hsec
  subst hs1
  rw [length_readSlots, length_readSlots]
  have hch2 : collapsePosition s.capacity s.cHead < s.capacity :=
    collapse_lt hc hch
  refine ⟨rfl, ?_, ?_, rfl⟩
  · simp only [dropPopSlices]
    apply List.Nodup.append
    · apply List.Nodup.map
      · intro a b hab
        simpa using hab
      · exact List.nodup_range _
    · exact List.nodup_range _
    · intro a ha hb
      rw [List.mem_map] at ha
      obtain ⟨i, hi, hai⟩ := ha
      rw [List.mem_range] at hb
      omega
  · simp only [dropPopSlices, List.length_append, List.length_map,
      List.length_range]
    omega

/-- C4: for every handle obtained from a successful `pop_slices(n)` in a
reachable state, the drop destructs exactly `n` pairwise-distinct slots —
the `first.len` slots starting at the collapsed pre-advance head in
ascending order, then the `second.len` slots from index 0 in ascending
order — and the head is advanced by `first.len + second.len` only on the
already-destructed state. -/
theorem c4_pop_slices_drop {s s1 : QState α} {f sec : List (Option α)}
    (n : Nat) (hI : Inv s) (heq : slices s n = (.ok (f, sec), s1)) :
    (dropPopSlices s1 f.length sec.length).1 =
      (List.range f.length).map
        (fun i => collapsePosition s1.capacity s1.cHead + i) ++
      List.range sec.length ∧
    (dropPopSlices s1 f.length sec.length).1.Nodup ∧
    (dropPopSlices s1 f.length sec.length).1.length = n ∧
    (dropPopSlices s1 f.length sec.length).2 =
      advanceHead { s1 with buffer :=
        (setRange (setRange s1.buffer
          (collapsePosition s1.capacity s1.cHead) f.length none)
          0 sec.length none) } s1.cHead (f.length + sec.length) := by
  obtain ⟨hc, hbl, hH2, hT2, hPH2, hCT2, hptl, hchd, hd, hdp, hdpc, hdc, hin⟩ := hI
  simp only [slices] at heq
  split_ifs at heq with h1 h2
  · simp at heq
  · refine c4_core (s := { s with cTail := s.tail }) n hc (by dsimp only; omega)
      ?_ heq
    dsimp only at h2 ⊢
    rw [hchd] at h2
    omega
  · refine c4_core (s := s) n hc (by omega) ?_ heq
    rw [hchd] at h1
    omega

/-- C4 witness: the drop order evaluated on a concrete wrapping bulk pop
(first slice at the end of the buffer, second slice at the origin). -/
theorem c4_pop_slices_drop_witness :
    ((dropPopSlices (slices (⟨2, 1, 3, [some 3, some 2], 1, 3, 0, 1, 3⟩ :
        QState Nat) 2).2 1 1).1 =
      (List.range 1).map
        (fun i => collapsePosition
          ((slices (⟨2, 1, 3, [some 3, some 2], 1, 3, 0, 1, 3⟩ :
            QState Nat) 2).2).capacity
          ((slices (⟨2, 1, 3, [some 3, some 2], 1, 3, 0, 1, 3⟩ :
            QState Nat) 2).2).cHead + i) ++
      List.range 1) ∧
    (dropPopSlices (slices (⟨2, 1, 3, [some 3, some 2], 1, 3, 0, 1, 3⟩ :
      QState Nat) 2).2 1 1).1.Nodup ∧
    (dropPopSlices (slices (⟨2, 1, 3, [some 3, some 2], 1, 3, 0, 1, 3⟩ :
      QState Nat) 2).2 1 1).1.length = 2 := by
  have h := c4_pop_slices_drop
    (s := (⟨2, 1, 3, [some 3, some 2], 1, 3, 0, 1, 3⟩ : QState Nat)) 2
    (by decide) rfl
  exact ⟨h.1, h.2.1, h.2.2.1⟩

/-! ### C10: the producer's cached head and the consumer's cached tail -/

/-- One step either leaves the producer's cached head alone or refreshes
it to the current shared head (which the producer itself never moves). -/
theorem step_pHead (dflt : α) (s : QState α) (op : Op α) :
    (step dflt s op).1.pHead = s.pHead ∨
    ((step dflt s op).1.pHead = s.head ∧ (step dflt s op).1.head = s.head) := by
  cases op <;>
    simp only [step, push, nextTail, pop, peek, nextHead, pushSlices,
      pushSlicesGo, dropPushSlices, writeSlices, slices, slicesGo,
      dropPopSlices, advanceHead] <;>
    split_ifs <;> simp

/-- One step either leaves the consumer's cached tail alone or refreshes
it to the current shared tail (which the consumer itself never moves). -/
theorem step_cTail (dflt : α) (s : QState α) (op : Op α) :
    (step dflt s op).1.cTail = s.cTail ∨
    ((step dflt s op).1.cTail = s.tail ∧ (step dflt s op).1.tail = s.tail) := by
  cases op <;>
    simp only [step, push, nextTail, pop, peek, nextHead, pushSlices,
      pushSlicesGo, dropPushSlices, writeSlices, slices, slicesGo,
      dropPopSlices, advanceHead] <;>
    split_ifs <;> simp

/-- Along any run, the producer's cached head is either still the starting
cached head or a value the shared head held after some prefix of the run. -/
theorem run_pHead_from (dflt : α) (ops : List (Op α)) :
    ∀ s : QState α, (run dflt s ops).1.pHead = s.pHead ∨
      ∃ k, (run dflt s (ops.take k)).1.head = (run dflt s ops).1.pHead := by
  induction ops with
  | nil => intro s; left; rfl
  | cons op ops ih =>
    intro s
    rcases ih (step dflt s op).1 with h | ⟨k, hk⟩
    · rcases step_pHead dflt s op with h2 | ⟨h2, h3⟩
      · left
        show (run dflt (step dflt s op).1 ops).1.pHead = s.pHead
        rw [h, h2]
      · right
        refine ⟨1, ?_⟩
        show (run dflt (step dflt s op).1 (ops.take 0)).1.head =
          (run dflt (step dflt s op).1 ops).1.pHead
        rw [List.take_zero, h, h2]
        exact h3
    · right
      exact ⟨k + 1, hk⟩

/-- Along any run, the consumer's cached tail is either still the starting
cached tail or a value the shared tail held after some prefix of the run. -/
theorem run_cTail_from (dflt : α) (ops : List (Op α)) :
    ∀ s : QState α, (run dflt s ops).1.cTail = s.cTail ∨
      ∃ k, (run dflt s (ops.take k)).1.tail = (run dflt s ops).1.cTail := by
  induction ops with
  | nil => intro s; left; rfl
  | cons op ops ih =>
    intro s
    rcases ih (step dflt s op).1 with h | ⟨k, hk⟩
    · rcases step_cTail dflt s op with h2 | ⟨h2, h3⟩
      · left
        show (run dflt (step dflt s op).1 ops).1.cTail = s.cTail
        rw [h, h2]
      · right
        refine ⟨1, ?_⟩
        show (run dflt (step dflt s op).1 (ops.take 0)).1.tail =
          (run dflt (step dflt s op).1 ops).1.cTail
        rw [List.take_zero, h, h2]
        exact h3
    · right
      exact ⟨k + 1, hk⟩

/-- C10: cache conservativeness — in every reachable state the producer's
cached head over-estimates the fill and the consumer's cached tail
under-estimates it, so a producer fast-path success implies there really
is room and a consumer fast-path success implies there really is an
element; moreover, each cached value is one the corresponding shared
counter held after some prefix of the run. -/
theorem c10_cache_conservative {c : Nat} (hc : 1 ≤ c) (dflt : α)
    (ops : List (Op α)) :
    distance c (run dflt (initState α c) ops).1.head
        (run dflt (initState α c) ops).1.tail ≤
      distance c (run dflt (initState α c) ops).1.pHead
        (run dflt (initState α c) ops).1.tail ∧
    distance c (run dflt (initState α c) ops).1.head
        (run dflt (initState α c) ops).1.cTail ≤
      distance c (run dflt (initState α c) ops).1.head
        (run dflt (initState α c) ops).1.tail ∧
    (distance c (run dflt (initState α c) ops).1.pHead
        (run dflt (initState α c) ops).1.pTail ≠ c →
      distance c (run dflt (initState α c) ops).1.head
        (run dflt (initState α c) ops).1.tail < c) ∧
    ((run dflt (initState α c) ops).1.cHead ≠
        (run dflt (initState α c) ops).1.cTail →
      0 < distance c (run dflt (initState α c) ops).1.head
        (run dflt (initState α c) ops).1.tail) ∧
    (∃ k, (run dflt (initState α c) (ops.take k)).1.head =
      (run dflt (initState α c) ops).1.pHead) ∧
    (∃ k, (run dflt (initState α c) (ops.take k)).1.tail =
      (run dflt (initState α c) ops).1.cTail) := by
  have hcap : (run dflt (initState α c) ops).1.capacity = c := by
    rw [run_capacity]
    rfl
  have h := run_inv hc dflt ops
  obtain ⟨h1, h2, h3, h4, h5, h6, h7, h8, h9, h10, h11, h12, h13⟩ := h
  rw [hcap] at h3 h4 h5 h6 h9 h10 h11 h12
  refine ⟨h10, h12, ?_, ?_, ?_, ?_⟩
  · intro hne
    rw [h7] at hne
    have : distance c (run dflt (initState α c) ops).1.pHead
        (run dflt (initState α c) ops).1.tail < c :=
      lt_of_le_of_ne h11 hne
    omega
  · intro hne
    rw [h8] at hne
    have h0 : distance c (run dflt (initState α c) ops).1.head
        (run dflt (initState α c) ops).1.cTail ≠ 0 := by
      intro h0
      exact hne ((dist_eq_zero_iff h3 h6).mp h0)
    omega
  · rcases run_pHead_from dflt ops (initState α c) with h | h
    · exact ⟨0, by rw [List.take_zero]; exact h.symm⟩
    · exact h
  · rcases run_cTail_from dflt ops (initState α c) with h | h
    · exact ⟨0, by rw [List.take_zero]; exact h.symm⟩
    · exact h

/-- C10 witness: the conservativeness facts evaluated on a concrete
trace in which both caches are stale. -/
theorem c10_cache_conservative_witness :
    distance 2 (run 0 (initState Nat 2) [Op.push 1, Op.pop, Op.push 2]).1.head
        (run 0 (initState Nat 2) [Op.push 1, Op.pop, Op.push 2]).1.tail ≤
      distance 2 (run 0 (initState Nat 2)
          [Op.push 1, Op.pop, Op.push 2]).1.pHead
        (run 0 (initState Nat 2) [Op.push 1, Op.pop, Op.push 2]).1.tail ∧
    distance 2 (run 0 (initState Nat 2) [Op.push 1, Op.pop, Op.push 2]).1.head
        (run 0 (initState Nat 2) [Op.push 1, Op.pop, Op.push 2]).1.cTail ≤
      distance 2 (run 0 (initState Nat 2) [Op.push 1, Op.pop, Op.push 2]).1.head
        (run 0 (initState Nat 2) [Op.push 1, Op.pop, Op.push 2]).1.tail ∧
    (distance 2 (run 0 (initState Nat 2)
          [Op.push 1, Op.pop, Op.push 2]).1.pHead
        (run 0 (initState Nat 2) [Op.push 1, Op.pop, Op.push 2]).1.pTail ≠ 2 →
      distance 2 (run 0 (initState Nat 2) [Op.push 1, Op.pop, Op.push 2]).1.head
        (run 0 (initState Nat 2) [Op.push 1, Op.pop, Op.push 2]).1.tail < 2) ∧
    ((run 0 (initState Nat 2) [Op.push 1, Op.pop, Op.push 2]).1.cHead ≠
        (run 0 (initState Nat 2) [Op.push 1, Op.pop, Op.push 2]).1.cTail →
      0 < distance 2 (run 0 (initState Nat 2)
          [Op.push 1, Op.pop, Op.push 2]).1.head
        (run 0 (initState Nat 2) [Op.push 1, Op.pop, Op.push 2]).1.tail) ∧
    (∃ k, (run 0 (initState Nat 2)
        ([Op.push 1, Op.pop, Op.push 2].take k)).1.head =
      (run 0 (initState Nat 2) [Op.push 1, Op.pop, Op.push 2]).1.pHead) ∧
    (∃ k, (run 0 (initState Nat 2)
        ([Op.push 1, Op.pop, Op.push 2].take k)).1.tail =
      (run 0 (initState Nat 2) [Op.push 1, Op.pop, Op.push 2]).1.cTail) :=
  c10_cache_conservative (by decide) 0 [Op.push 1, Op.pop, Op.push 2]

end Rtrb
